import Mathlib

/-!
A shallow embedding of `Vector<T>` (src/vector.h.cpp).

The class template is embedded over an explicit free store.

* A `World T` is the free store: a list of blocks, one per successful
  `operator new`, each either released or a list of slots; a slot is
  `none` (raw, uninitialised memory) or `some v` (a live `T` of value `v`).
  The world also counts the allocations, deallocations, constructions,
  move-constructions, destructions and assignments performed so far.
* A pointer `T*` is a block (`Option Nat`, `none` being `nullptr`) together
  with a slot offset.
* The element type `T` is abstract: `ElemOps T` gives the result of each of its
  special member functions, `none` standing for a thrown exception.
* Every member function maps the object (`*this`) and the world to an
  `Outcome`: a normal return, a propagating exception (with the state it
  leaves behind) or undefined behaviour.

`size_t` is embedded as `Nat`, for a target where it has 64 bits. A `Vector` of
`2^63` elements cannot be allocated, so `2 * _size` never wraps. The byte count
`n * sizeof(T)` handed to `operator new` is computed in `size_t` and wraps around
at `2^64`: the block then has fewer than `n` slots (`size_t_room`), while
`_capacity` records `n` itself.
-/

namespace Cpp

/-! ## The free store and the element type -/

/-- The exceptions that can leave a member function: `std::bad_alloc` from
`operator new`, or whatever a special member function of `T` throws. -/
inductive Exn where
  | bad_alloc
  | elem_op
  deriving DecidableEq, Repr

/-- The special member functions of the element type `T`. `none` means the
call throws. -/
structure ElemOps (T : Type) where
  /-- The value of `T()`. -/
  value_init : Option T
  /-- The value of `T(const T&)` applied to a live value. -/
  copy_ctor : T → Option T
  /-- The effect of `T(T&&)`: the new object and the moved-from value left in the source. -/
  move_ctor : T → Option (T × T)
  /-- The effect of `lhs = rhs`, as `copy_assign lhs rhs`: the new value of `lhs`. -/
  copy_assign : T → T → Option T

/-- The environment of a run: the element type and the allocator. -/
structure Env (T : Type) where
  ops : ElemOps T
  /-- Whether `operator new` succeeds when `k` blocks have been allocated before and `n` slots are asked for. -/
  alloc_ok : Nat → Nat → Bool
  /-- The value of `sizeof(T)`, in bytes (at least 1 for every object type). -/
  sizeof_T : Nat

/-- The free store with its event counters. -/
@[ext]
structure World (T : Type) where
  /-- Block `b` is `heap[b]`: `none` once released, else its slots. -/
  heap : List (Option (List (Option T)))
  allocs : Nat
  deallocs : Nat
  /-- Elements constructed (value-, copy- or move-constructed). -/
  ctors : Nat
  /-- Elements move-constructed (relocations). -/
  moves : Nat
  dtors : Nat
  assigns : Nat
  deriving DecidableEq, Repr

/-- The result of running a piece of code from a state of type `σ`. -/
inductive Outcome (σ α : Type) where
  /-- Normal return with value `a`, leaving state `s`. -/
  | ret (a : α) (s : σ)
  /-- An exception propagates to the caller, leaving state `s`. -/
  | throw (e : Exn) (s : σ)
  /-- Undefined behaviour. -/
  | ub
  deriving DecidableEq, Repr

variable {T : Type}

/-- The slots of block `b`, when it is allocated and not released. -/
def World.block (w : World T) (b : Nat) : Option (List (Option T)) :=
  w.heap.getD b none

/-- The live object at `p + i`, if there is one. -/
def World.load (w : World T) (p : Option Nat) (i : Nat) : Option T :=
  match p with
  | none => none
  | some b =>
    match w.block b with
    | none => none
    | some s => s.getD i none

/-- Overwrite slot `i` of block `b` (no counter changes). -/
def World.setSlot (w : World T) (b i : Nat) (s : List (Option T)) (x : Option T) : World T :=
  { w with heap := w.heap.set b (some (s.set i x)) }

/-- Placement new: `new (p + i) T(...)` when the constructor yields `v`.
`none` is undefined behaviour (the address is not a slot of a live block). -/
def World.construct_at (w : World T) (p : Option Nat) (i : Nat) (v : T) : Option (World T) :=
  match p with
  | none => none
  | some b =>
    match w.block b with
    | none => none
    | some s =>
      if i < s.length then some { w.setSlot b i s (some v) with ctors := w.ctors + 1 }
      else none

/-- The call `std::destroy_at(p + i)`, i.e. `(p + i)->~T()`. `none` is undefined behaviour
(no live object there). -/
def World.destroy_at (w : World T) (p : Option Nat) (i : Nat) : Option (World T) :=
  match p with
  | none => none
  | some b =>
    match w.block b with
    | none => none
    | some s =>
      match s.getD i none with
      | none => none
      | some _ => some { w.setSlot b i s none with dtors := w.dtors + 1 }

/-- The call `std::destroy_n(p + first, n)`: destroys `n` objects in increasing address order. -/
def destroy_n (p : Option Nat) (first : Nat) : Nat → World T → Option (World T)
  | 0, w => some w
  | n + 1, w =>
    match w.destroy_at p first with
    | none => none
    | some w1 => destroy_n p (first + 1) n w1

/-- The loop of `std::uninitialized_value_construct_n(p + first, n)`, with `done` objects
already built and `n` to go; a throwing `T()` destroys the `done` objects and rethrows. -/
def uninitialized_value_construct_loop (env : Env T) (p : Option Nat) (first : Nat) :
    Nat → Nat → World T → Outcome (World T) Unit
  | 0, _, w => .ret () w
  | n + 1, done, w =>
    match env.ops.value_init with
    | none =>
      match destroy_n p first done w with
      | none => .ub
      | some w1 => .throw .elem_op w1
    | some v =>
      match w.construct_at p (first + done) v with
      | none => .ub
      | some w1 => uninitialized_value_construct_loop env p first n (done + 1) w1

/-- The call `std::uninitialized_value_construct_n(p + first, n)`. -/
def uninitialized_value_construct_n (env : Env T) (p : Option Nat) (first n : Nat)
    (w : World T) : Outcome (World T) Unit :=
  uninitialized_value_construct_loop env p first n 0 w

/-- The loop of `std::uninitialized_copy_n(src + sfirst, n, dst + dfirst)`. -/
def uninitialized_copy_loop (env : Env T) (src : Option Nat) (sfirst : Nat)
    (dst : Option Nat) (dfirst : Nat) : Nat → Nat → World T → Outcome (World T) Unit
  | 0, _, w => .ret () w
  | n + 1, done, w =>
    match w.load src (sfirst + done) with
    | none => .ub
    | some x =>
      match env.ops.copy_ctor x with
      | none =>
        match destroy_n dst dfirst done w with
        | none => .ub
        | some w1 => .throw .elem_op w1
      | some v =>
        match w.construct_at dst (dfirst + done) v with
        | none => .ub
        | some w1 => uninitialized_copy_loop env src sfirst dst dfirst n (done + 1) w1

/-- The call `std::uninitialized_copy_n(src + sfirst, n, dst + dfirst)`. -/
def uninitialized_copy_n (env : Env T) (src : Option Nat) (sfirst n : Nat)
    (dst : Option Nat) (dfirst : Nat) (w : World T) : Outcome (World T) Unit :=
  uninitialized_copy_loop env src sfirst dst dfirst n 0 w

/-- Give the live object in slot `i` of block `p` the new value `r` (an assignment to it, or
the moved-from value a move leaves in its source). -/
def World.store (w : World T) (p : Option Nat) (i : Nat) (r : T) : Option (World T) :=
  match p with
  | none => none
  | some b =>
    match w.block b with
    | none => none
    | some s => if i < s.length then some (w.setSlot b i s (some r)) else none

/-- The loop of `std::uninitialized_move_n(src, n, dst)`: each step move-constructs
`dst[done]` from `src[done]`, which keeps a moved-from value. -/
def uninitialized_move_loop (env : Env T) (src dst : Option Nat) :
    Nat → Nat → World T → Outcome (World T) Unit
  | 0, _, w => .ret () w
  | n + 1, done, w =>
    match w.load src done with
    | none => .ub
    | some x =>
      match env.ops.move_ctor x with
      | none =>
        match destroy_n dst 0 done w with
        | none => .ub
        | some w1 => .throw .elem_op w1
      | some (v, r) =>
        match w.store src done r with
        | none => .ub
        | some w1 =>
          match w1.construct_at dst done v with
          | none => .ub
          | some w2 =>
            uninitialized_move_loop env src dst n (done + 1) { w2 with moves := w2.moves + 1 }

/-- The call `std::uninitialized_move_n(src, n, dst)`. -/
def uninitialized_move_n (env : Env T) (src : Option Nat) (n : Nat) (dst : Option Nat)
    (w : World T) : Outcome (World T) Unit :=
  uninitialized_move_loop env src dst n 0 w

/-- The assignment `dst[i] = src[j]` between two live objects, through `T::operator=`. -/
def World.assign_at (env : Env T) (w : World T) (dst : Option Nat) (i : Nat)
    (src : Option Nat) (j : Nat) : Outcome (World T) Unit :=
  match w.load dst i with
  | none => .ub
  | some a =>
    match w.load src j with
    | none => .ub
    | some x =>
      match env.ops.copy_assign a x with
      | none => .throw .elem_op w
      | some v =>
        match w.store dst i v with
        | none => .ub
        | some w1 => .ret () { w1 with assigns := w1.assigns + 1 }

/-! ## Raw storage: `Vector::_memory` -/

/-- The class `_memory`: a buffer pointer and the number of slots it was allocated for. -/
structure _memory where
  _buf : Option Nat
  _capacity : Nat
  deriving DecidableEq, Repr

/-- The default member initialisers of `_memory`: `_buf = nullptr`, `_capacity = 0`. -/
def _memory.default : _memory := { _buf := none, _capacity := 0 }

/-- The number of objects of `sizeof_T` bytes that fit the block `operator new(n * sizeof_T)`
returns, the product being computed in 64-bit `size_t`: it is `n` only when the product does
not wrap around. -/
def size_t_room (sizeof_T n : Nat) : Nat := (n * sizeof_T % 2 ^ 64) / sizeof_T

/-- The static `_memory::_allocate(n)`: `operator new(n * sizeof(T))`, which throws
`std::bad_alloc` or returns a fresh block of raw slots. The byte count is computed in `size_t`
with no check, so the block has `(n * sizeof(T) mod 2^64) / sizeof(T)` slots. -/
def _memory._allocate (env : Env T) (n : Nat) (w : World T) : Outcome (World T) (Option Nat) :=
  if env.alloc_ok w.heap.length n then
    .ret (some w.heap.length)
      { w with heap := w.heap ++ [some (List.replicate (size_t_room env.sizeof_T n) none)],
               allocs := w.allocs + 1 }
  else .throw .bad_alloc w

/-- The static `_memory::_deallocate(buf)`: `operator delete(buf)`; a no-op on `nullptr`,
undefined on a block that is not live. -/
def _memory._deallocate (buf : Option Nat) (w : World T) : Option (World T) :=
  match buf with
  | none => some w
  | some b =>
    match w.block b with
    | none => none
    | some _ => some { w with heap := w.heap.set b none, deallocs := w.deallocs + 1 }

/-- The constructor `_memory(size_t n)`: `_buf = _allocate(n); _capacity = n`. The capacity
recorded is `n`, whatever room the block really has. -/
def _memory.sized (env : Env T) (n : Nat) (w : World T) : Outcome (World T) _memory :=
  match _memory._allocate env n w with
  | .ret buf w1 => .ret { _buf := buf, _capacity := n } w1
  | .throw e w1 => .throw e w1
  | .ub => .ub

/-- The destructor `~_memory()`. -/
def _memory.dtor (m : _memory) (w : World T) : Option (World T) :=
  _memory._deallocate m._buf w

/-- The member `_memory::Swap`: exchanges buffer and capacity; returns the new `*this` and the new `other`. -/
def _memory.Swap (self other : _memory) : _memory × _memory :=
  ({ _buf := other._buf, _capacity := other._capacity },
   { _buf := self._buf, _capacity := self._capacity })

/-! ## The container: `Vector` -/

/-- The class `Vector<T>`: its raw storage and its length. -/
structure Vector where
  _data : _memory
  _size : Nat
  deriving DecidableEq, Repr

namespace Vector

/-- The default constructor `Vector() = default`. -/
def default : Vector := { _data := _memory.default, _size := 0 }

/-- The accessor `size()`. -/
def size (self : Vector) : Nat := self._size

/-- The accessor `capacity()`. -/
def capacity (self : Vector) : Nat := self._data._capacity

/-- The value read through `operator[](pos)`; `none` when there is no live object at
`_data._buf + pos`. -/
def get (self : Vector) (w : World T) (pos : Nat) : Option T :=
  w.load self._data._buf pos

/-- The member `swap(other)`: returns the new `*this` and the new `other`. -/
def swap (self other : Vector) : Vector × Vector :=
  let d := _memory.Swap self._data other._data
  ({ _data := d.1, _size := other._size }, { _data := d.2, _size := self._size })

/-- The move assignment `operator=(Vector&& other)`: `swap(other)`. -/
def move_assign (self other : Vector) : Vector × Vector :=
  self.swap other

/-- The destructor `~Vector()`: `destroy_n(_data._buf, _size)`, then `~_memory()`. -/
def dtor (self : Vector) (w : World T) : Option (World T) :=
  match destroy_n self._data._buf 0 self._size w with
  | none => none
  | some w1 => self._data.dtor w1

/-- The constructor `Vector(size_t n)`. When an element constructor throws, the member
`_data` is destroyed and the exception propagates. -/
def sized (env : Env T) (n : Nat) (w : World T) : Outcome (World T) Vector :=
  match _memory.sized env n w with
  | .throw e w1 => .throw e w1
  | .ub => .ub
  | .ret _data w1 =>
    match uninitialized_value_construct_n env _data._buf 0 n w1 with
    | .ub => .ub
    | .throw e w2 =>
      match _data.dtor w2 with
      | none => .ub
      | some w3 => .throw e w3
    | .ret _ w2 => .ret { _data := _data, _size := n } w2

/-- The copy constructor `Vector(const Vector& other)`. -/
def copy (env : Env T) (other : Vector) (w : World T) : Outcome (World T) Vector :=
  match _memory.sized env other._size w with
  | .throw e w1 => .throw e w1
  | .ub => .ub
  | .ret _data w1 =>
    match uninitialized_copy_n env other._data._buf 0 other._size _data._buf 0 w1 with
    | .ub => .ub
    | .throw e w2 =>
      match _data.dtor w2 with
      | none => .ub
      | some w3 => .throw e w3
    | .ret _ w2 => .ret { _data := _data, _size := other._size } w2

/- The move constructor `Vector(const Vector&& other) noexcept { Swap(other); }` has no
embedding. `Vector` declares no member `Swap` (its exchange is `swap`; `Swap` belongs to the
nested class `_memory`), and `other` is a const reference that `swap(Vector&)` could not take:
the body is ill-formed as soon as the constructor is instantiated, so there is no run to model.
The same holds for `_memory(const _memory&&)`, which nothing calls. -/

/-- The member `reserve(n)`. The state is `(*this, world)`. -/
def reserve (env : Env T) (n : Nat) (self : Vector) (w : World T) :
    Outcome (Vector × World T) Unit :=
  if self._data._capacity < n then
    match _memory.sized env n w with
    | .throw e w1 => .throw e (self, w1)
    | .ub => .ub
    | .ret _data2 w1 =>
      match uninitialized_move_n env self._data._buf self._size _data2._buf w1 with
      | .ub => .ub
      | .throw e w2 =>
        match _data2.dtor w2 with
        | none => .ub
        | some w3 => .throw e (self, w3)
      | .ret _ w2 =>
        match destroy_n self._data._buf 0 self._size w2 with
        | none => .ub
        | some w3 =>
          let d := _memory.Swap self._data _data2
          match d.2.dtor w3 with
          | none => .ub
          | some w4 => .ret () ({ self with _data := d.1 }, w4)
  else .ret () (self, w)

/-- The member `resize(n)`. -/
def resize (env : Env T) (n : Nat) (self : Vector) (w : World T) :
    Outcome (Vector × World T) Unit :=
  match self.reserve env n w with
  | .ub => .ub
  | .throw e s => .throw e s
  | .ret _ (self1, w1) =>
    if self1._size < n then
      match uninitialized_value_construct_n env self1._data._buf self1._size (n - self1._size) w1 with
      | .ub => .ub
      | .throw e w2 => .throw e (self1, w2)
      | .ret _ w2 => .ret () ({ self1 with _size := n }, w2)
    else if self1._size > n then
      match destroy_n self1._data._buf n (self1._size - n) w1 with
      | none => .ub
      | some w2 => .ret () ({ self1 with _size := n }, w2)
    else .ret () ({ self1 with _size := n }, w1)

/-- The common body of `push_back` and `emplace_back`: grow if full, construct the new
element at `_data + _size` (`ctor` is what its constructor yields, `none` if it throws),
then `++_size`. Returns the offset of the new element. -/
def append (env : Env T) (ctor : Option T) (self : Vector) (w : World T) :
    Outcome (Vector × World T) Nat :=
  let grown :=
    if self._size = self._data._capacity then
      self.reserve env (if self._size = 0 then 1 else 2 * self._size) w
    else .ret () (self, w)
  match grown with
  | .ub => .ub
  | .throw e s => .throw e s
  | .ret _ (self1, w1) =>
    match ctor with
    | none => .throw .elem_op (self1, w1)
    | some v =>
      match w1.construct_at self1._data._buf self1._size v with
      | none => .ub
      | some w2 => .ret self1._size ({ self1 with _size := self1._size + 1 }, w2)

/-- The member `push_back(const T& elem)`, and equally `push_back(const T&& elem)`, whose
`T(std::move(elem))` on a const rvalue selects the copy constructor as well. The argument is an
object of value `elem` outside the vector's own buffer. -/
def push_back (env : Env T) (elem : T) (self : Vector) (w : World T) :
    Outcome (Vector × World T) Unit :=
  match self.append env (env.ops.copy_ctor elem) w with
  | .ub => .ub
  | .throw e s => .throw e s
  | .ret _ s => .ret () s

/-- The member `emplace_back(args...)`, where `ctor` is the outcome of `T(args...)`; returns
the offset of the new element in the buffer (the reference `*elem`). -/
def emplace_back (env : Env T) (ctor : Option T) (self : Vector) (w : World T) :
    Outcome (Vector × World T) Nat :=
  self.append env ctor w

/-- The member `pop_back()`. On an empty vector `_data + _size - 1` points before the
buffer: undefined behaviour. -/
def pop_back (self : Vector) (w : World T) : Outcome (Vector × World T) Unit :=
  if self._size = 0 then .ub
  else
    match w.destroy_at self._data._buf (self._size - 1) with
    | none => .ub
    | some w1 => .ret () ({ self with _size := self._size - 1 }, w1)

/-- The member `clear()`. -/
def clear (self : Vector) (w : World T) : Outcome (Vector × World T) Unit :=
  match destroy_n self._data._buf 0 self._size w with
  | none => .ub
  | some w1 => .ret () ({ self with _size := 0 }, w1)

/-- The loop `for (i = 0; i < other._size && i < _size; ++i) _data[i] = other[i];` of the
copy assignment, at index `i` with `k` iterations to go (it is started with
`k = min other._size _size`). -/
def assign_loop (env : Env T) (dst src : Option Nat) : Nat → Nat → World T → Outcome (World T) Unit
  | 0, _, w => .ret () w
  | k + 1, i, w =>
    match w.assign_at env dst i src i with
    | .ub => .ub
    | .throw e w1 => .throw e w1
    | .ret _ w1 => assign_loop env dst src k (i + 1) w1

/-- The copy assignment `operator=(const Vector& other)`. -/
def copy_assign (env : Env T) (self other : Vector) (w : World T) :
    Outcome (Vector × World T) Unit :=
  if other._size > self._size then
    match Vector.copy env other w with
    | .ub => .ub
    | .throw e w1 => .throw e (self, w1)
    | .ret temp w1 =>
      let st := self.swap temp
      match st.2.dtor w1 with
      | none => .ub
      | some w2 => .ret () (st.1, w2)
  else
    match assign_loop env self._data._buf other._data._buf (min other._size self._size) 0 w with
    | .ub => .ub
    | .throw e w1 => .throw e (self, w1)
    | .ret _ w1 =>
      if self._size < other._size then
        match uninitialized_copy_n env other._data._buf self._size (other._size - self._size)
            self._data._buf self._size w1 with
        | .ub => .ub
        | .throw e w2 => .throw e (self, w2)
        | .ret _ w2 => .ret () ({ self with _size := other._size }, w2)
      else if self._size > other._size then
        match destroy_n self._data._buf other._size (self._size - other._size) w1 with
        | none => .ub
        | some w2 => .ret () ({ self with _size := other._size }, w2)
      else .ret () ({ self with _size := other._size }, w1)

/-- The statement `v[pos] = x`: assignment through the reference `operator[](pos)` returns. -/
def write (env : Env T) (pos : Nat) (x : T) (self : Vector) (w : World T) :
    Outcome (Vector × World T) Unit :=
  match w.load self._data._buf pos with
  | none => .ub
  | some a =>
    match env.ops.copy_assign a x with
    | none => .throw .elem_op (self, w)
    | some v =>
      match w.store self._data._buf pos v with
      | none => .ub
      | some w1 => .ret () (self, { w1 with assigns := w1.assigns + 1 })

end Vector

/-! ## Client code: sequences of calls -/

/-- One mutating use of a `Vector`. -/
inductive Mutation (T : Type) where
  | write (pos : Nat) (x : T)
  | push_back (x : T)
  | pop_back
  | resize (n : Nat)
  | reserve (n : Nat)
  | clear
  deriving DecidableEq, Repr

/-- Run one mutation on `self`. -/
def Vector.mutate (env : Env T) (m : Mutation T) (self : Vector) (w : World T) :
    Outcome (Vector × World T) Unit :=
  match m with
  | .write pos x => self.write env pos x w
  | .push_back x => self.push_back env x w
  | .pop_back => self.pop_back w
  | .resize n => self.resize env n w
  | .reserve n => self.reserve env n w
  | .clear => self.clear w

/-- Run mutations on `self` one after the other; an exception or undefined behaviour ends the run. -/
def Vector.mutate_all (env : Env T) : List (Mutation T) → Vector → World T →
    Outcome (Vector × World T) Unit
  | [], self, w => .ret () (self, w)
  | m :: ms, self, w =>
    match self.mutate env m w with
    | .ub => .ub
    | .throw e s => .throw e s
    | .ret _ (self1, w1) => Vector.mutate_all env ms self1 w1

/-- The calls `push_back(v_0); ...; push_back(v_{N-1})` in order. -/
def Vector.push_all (env : Env T) (vs : List T) (self : Vector) (w : World T) :
    Outcome (Vector × World T) Unit :=
  Vector.mutate_all env (vs.map Mutation.push_back) self w

/-! ## Well-behaved environments and valid objects -/

/-- The request for `n` slots, made when `k` blocks have been allocated before, is served in
full: `operator new` does not fail, and the byte count `n * sizeof(T)` does not wrap around in
`size_t`, so that the block has room for all `n` objects. -/
def Env.Serves (env : Env T) (k n : Nat) : Prop :=
  env.alloc_ok k n = true ∧ 0 < env.sizeof_T ∧ n * env.sizeof_T < 2 ^ 64

/-- The allocator does not fail on a request for at most `N` slots, and such a request does not
wrap around: every one of them is served in full. -/
def Env.AllocOk (env : Env T) (N : Nat) : Prop := ∀ k n, n ≤ N → env.Serves k n

/-- The move constructor of `T` does not throw and gives the new object the source's value. -/
def Env.MoveOk (env : Env T) : Prop := ∀ x, ∃ r, env.ops.move_ctor x = some (x, r)

/-- The copy constructor of `T` does not throw and copies the value. -/
def Env.CopyOk (env : Env T) : Prop := ∀ x, env.ops.copy_ctor x = some x

/-- The copy assignment of `T` does not throw and gives the target the source's value. -/
def Env.AssignOk (env : Env T) : Prop := ∀ a x, env.ops.copy_assign a x = some x

/-- The slots of a buffer of capacity `cap` that holds exactly the live elements `xs`. -/
def layout (xs : List T) (cap : Nat) : List (Option T) :=
  xs.map some ++ List.replicate (cap - xs.length) none

/-- The class invariant, with the contents named: in world `w` the object `self` holds exactly
the elements `xs`. Its length is `xs.length ≤ capacity`; its buffer is `nullptr` with
capacity 0, or a live block of `capacity` slots of which the first `xs.length` hold `xs` and the
others are raw. -/
def Vector.Holds (w : World T) (self : Vector) (xs : List T) : Prop :=
  self._size = xs.length ∧ xs.length ≤ self._data._capacity ∧
  match self._data._buf with
  | none => self._data._capacity = 0
  | some b => w.block b = some (layout xs self._data._capacity)

/-- Two objects do not share their buffer. -/
def Vector.Apart (a b : Vector) : Prop :=
  a._data._buf = none ∨ a._data._buf ≠ b._data._buf

/-- Validity of an object is decidable. -/
instance Vector.decidableHolds [DecidableEq T] (w : World T) (v : Vector) (xs : List T) :
    Decidable (v.Holds w xs) := by
  unfold Vector.Holds
  cases v._data._buf <;> exact inferInstance

/-- Separation of two objects is decidable. -/
instance Vector.decidableApart (a b : Vector) : Decidable (a.Apart b) := by
  unfold Vector.Apart
  exact inferInstance

/-- The moved-from value the move constructor of `T` leaves in a source of value `x`. -/
def ElemOps.residual (ops : ElemOps T) (x : T) : T :=
  match ops.move_ctor x with
  | some (_, r) => r
  | none => x

/-- The world `w2` differs from `w1` at most in the block `p` and in blocks allocated since `w1`. -/
def World.Frame (p : Option Nat) (w1 w2 : World T) : Prop :=
  w1.heap.length ≤ w2.heap.length ∧
  ∀ c, c < w1.heap.length → p ≠ some c → w2.block c = w1.block c

/-- The world `w2` has the blocks of `w1`, changed at most in the blocks `q` and `r`. -/
def World.Only (q r : Option Nat) (w1 w2 : World T) : Prop :=
  w2.heap.length = w1.heap.length ∧
  ∀ c, q ≠ some c → r ≠ some c → w2.block c = w1.block c

/-- The buffer `q` is the buffer `p`, or a block allocated after world `w`. -/
def World.KeptOrFresh (w : World T) (p q : Option Nat) : Prop :=
  q = p ∨ ∃ c, q = some c ∧ w.heap.length ≤ c

/-- The element type `int`: regular, non-throwing operations over the values `Nat`, `sizeof(T)`
of 4, and an `operator new` that never throws. -/
def natEnv : Env Nat :=
  { ops := { value_init := some 0
             copy_ctor := fun x => some x
             move_ctor := fun x => some (x, x)
             copy_assign := fun _ x => some x }
    alloc_ok := fun _ _ => true
    sizeof_T := 4 }

/-- The empty free store. -/
def World.empty : World T :=
  { heap := [], allocs := 0, deallocs := 0, ctors := 0, moves := 0, dtors := 0, assigns := 0 }

/-- A free store with two buffers: block 0 holds `[10, 20]`, block 1 holds `[1, 2, 3, 4]`. -/
def demoWorld : World Nat :=
  { heap := [some [some 10, some 20], some [some 1, some 2, some 3, some 4]]
    allocs := 2, deallocs := 0, ctors := 6, moves := 0, dtors := 0, assigns := 0 }

/-- The Vector `[10, 20]` of `demoWorld` (capacity 2). -/
def demoX : Vector := { _data := { _buf := some 0, _capacity := 2 }, _size := 2 }

/-- The Vector `[1, 2, 3, 4]` of `demoWorld` (capacity 4). -/
def demoY : Vector := { _data := { _buf := some 1, _capacity := 4 }, _size := 4 }

/-- A free store with two buffers: block 0 holds `[1, 2, 3, 4]`, block 1 holds `[9, 9]`. -/
def shrinkWorld : World Nat :=
  { heap := [some [some 1, some 2, some 3, some 4], some [some 9, some 9]]
    allocs := 2, deallocs := 0, ctors := 6, moves := 0, dtors := 0, assigns := 0 }

/-- The Vector `[1, 2, 3, 4]` of `shrinkWorld` (capacity 4). -/
def shrinkX : Vector := { _data := { _buf := some 0, _capacity := 4 }, _size := 4 }

/-- The Vector `[9, 9]` of `shrinkWorld` (capacity 2). -/
def shrinkY : Vector := { _data := { _buf := some 1, _capacity := 2 }, _size := 2 }

/-- The free store after `push_back(1), push_back(2), push_back(3)` on an empty Vector. -/
def pushedWorld : World Nat :=
  { heap := [none, none, some [some 1, some 2, some 3, none]]
    allocs := 3, deallocs := 2, ctors := 6, moves := 3, dtors := 3, assigns := 0 }

/-- The Vector `[1, 2, 3]` of `pushedWorld` (capacity 4). -/
def pushedV : Vector := { _data := { _buf := some 2, _capacity := 4 }, _size := 3 }

/-- The invariant `size() <= capacity()`. -/
def Vector.Inv (v : Vector) : Prop := v.size ≤ v.capacity

/-- The invariant is decidable. -/
instance Vector.decidableInv (v : Vector) : Decidable v.Inv :=
  inferInstanceAs (Decidable (v.size ≤ v.capacity))

/-- The object a member function leaves, whether it returned or threw, satisfies `P`
(nothing is said of undefined behaviour). -/
def Outcome.Leaves {α : Type} (o : Outcome (Vector × World T) α) (P : Vector → Prop) : Prop :=
  match o with
  | .ret _ s => P s.1
  | .throw _ s => P s.1
  | .ub => True

/-- The object a constructor builds, when it returns, satisfies `P`. -/
def Outcome.Builds (o : Outcome (World T) Vector) (P : Vector → Prop) : Prop :=
  match o with
  | .ret v _ => P v
  | .throw _ _ => True
  | .ub => True

/-- An element type over `Nat` whose move constructor leaves the value 0 in its source (it
steals what the source owns) and throws when asked to move the value 20; allocation never
fails. -/
def stealingEnv : Env Nat :=
  { ops := { value_init := some 0
             copy_ctor := fun x => some x
             move_ctor := fun x => if x = 20 then none else some (x, 0)
             copy_assign := fun _ x => some x }
    alloc_ok := fun _ _ => true
    sizeof_T := 4 }

/-- An element type over `Nat` whose default constructor throws; its other operations are
regular and allocation never fails. -/
def noDefaultEnv : Env Nat :=
  { ops := { value_init := none
             copy_ctor := fun x => some x
             move_ctor := fun x => some (x, x)
             copy_assign := fun _ x => some x }
    alloc_ok := fun _ _ => true
    sizeof_T := 4 }

/-- The capacity `c` and the relocation count `m` after `s` appends to a default-constructed
Vector, `m0` being the count before them: either nothing was appended, or the capacity is a
power of two with `c / 2 < s <= c`, reached by relocating `c - 1` elements in all. -/
def GrowthInv (m0 s c m : Nat) : Prop :=
  (s = 0 ∧ c = 0 ∧ m = m0) ∨ (∃ k, c = 2 ^ k ∧ m + 1 = m0 + c ∧ s ≤ c ∧ c < 2 * s)

/-- The in-place case of the copy assignment as the specification describes it: copy-assign
the overlapping prefix, destroy the trailing excess of `*this` when shrinking, set the length
to that of `other`; no element is constructed. -/
def Vector.copy_assign_in_place_described (env : Env T) (self other : Vector) (w : World T) :
    Outcome (Vector × World T) Unit :=
  match Vector.assign_loop env self._data._buf other._data._buf
      (min other._size self._size) 0 w with
  | .ub => .ub
  | .throw e w1 => .throw e (self, w1)
  | .ret _ w1 =>
    if self._size > other._size then
      match destroy_n self._data._buf other._size (self._size - other._size) w1 with
      | none => .ub
      | some w2 => .ret () ({ self with _size := other._size }, w2)
    else .ret () ({ self with _size := other._size }, w1)

/-- A free store in which block 0, of 100 slots, holds `[10, 20]` and block 1 holds
`[1, 2, 3, 4]`. -/
def wideWorld : World Nat :=
  { heap := [some (layout [10, 20] 100), some [some 1, some 2, some 3, some 4]]
    allocs := 2, deallocs := 0, ctors := 6, moves := 0, dtors := 0, assigns := 0 }

/-- The Vector `[10, 20]` of `wideWorld`, of capacity 100. -/
def wideX : Vector := { _data := { _buf := some 0, _capacity := 100 }, _size := 2 }

/-- What a reallocation of the buffer `p`, holding `xs`, into `n` slots does to the free store. -/
structure Realloc (w w2 : World T) (p : Option Nat) (xs : List T) (n : Nat) : Prop where
  len : w2.heap.length = w.heap.length + 1
  fresh : w2.block w.heap.length = some (layout xs n)
  frame : ∀ c, c < w.heap.length → p ≠ some c → w2.block c = w.block c
  released : ∀ c, p = some c → w2.block c = none
  allocs : w2.allocs = w.allocs + 1
  deallocs : w2.deallocs = w.deallocs + (if p = none then 0 else 1)
  ctors : w2.ctors = w.ctors + xs.length
  moves : w2.moves = w.moves + xs.length
  dtors : w2.dtors = w.dtors + xs.length
  assigns : w2.assigns = w.assigns

/-! ## Lists of slots and blocks of the free store -/

theorem set_at_length {α : Type} (L : List α) (x y : α) (R : List α) :
    (L ++ x :: R).set L.length y = L ++ y :: R := by
  induction L with
  | nil => rfl
  | cons a L ih => simp [ih]

theorem getD_at_length {α : Type} (L : List α) (x d : α) (R : List α) :
    (L ++ x :: R).getD L.length d = x := by
  induction L with
  | nil => rfl
  | cons a L ih => simpa using ih

theorem getD_set_heap {α : Type} (h : List (Option α)) (b c : Nat) (x : Option α) :
    (h.set b x).getD c none = if c = b ∧ b < h.length then x else h.getD c none := by
  simp only [List.getD_eq_getElem?_getD, List.getElem?_set]
  by_cases hcb : c = b
  · subst hcb
    by_cases hl : c < h.length
    · simp [hl]
    · simp [hl, List.getElem?_eq_none (Nat.le_of_not_lt hl)]
  · have : b ≠ c := fun e => hcb e.symm
    simp [hcb, this]

theorem World.block_lt {w : World T} {b : Nat} {s : List (Option T)}
    (h : w.block b = some s) : b < w.heap.length := by
  unfold World.block at h
  by_contra hl
  rw [List.getD_eq_getElem?_getD, List.getElem?_eq_none (Nat.le_of_not_lt hl)] at h
  simp at h

theorem heap_set_self {w : World T} {b : Nat} {s : List (Option T)}
    (hb : w.block b = some s) : w.heap.set b (some s) = w.heap := by
  have hl := World.block_lt hb
  unfold World.block at hb
  rw [List.getD_eq_getElem?_getD] at hb
  apply List.ext_getElem?
  intro i
  rw [List.getElem?_set]
  split
  · next h => subst h; simp [hl] at hb ⊢; exact hb.symm
  · rfl

/-- Constructing into the first raw slot after the live values `ys`. -/
theorem construct_at_next {w : World T} {b : Nat} (ys : List T) (k : Nat) (v : T)
    (hb : w.block b = some (ys.map some ++ List.replicate (k + 1) none)) :
    w.construct_at (some b) ys.length v =
      some { w with heap := w.heap.set b (some ((ys ++ [v]).map some ++ List.replicate k none)),
                    ctors := w.ctors + 1 } := by
  have hset : (List.map some ys ++ List.replicate (k + 1) none).set ys.length (some v)
      = (ys ++ [v]).map some ++ List.replicate k (none : Option T) := by
    have := set_at_length (ys.map some) (none : Option T) (some v) (List.replicate k none)
    simp [List.replicate_succ]
  simp [World.construct_at, hb, World.setSlot, hset]

theorem block_set_same {w : World T} {b : Nat} {s : List (Option T)} (x : Option (List (Option T)))
    (hb : w.block b = some s) (a d c m t g : Nat) :
    (World.mk (w.heap.set b x) a d c m t g).block b = x := by
  have := World.block_lt hb
  simp [World.block, getD_set_heap, this]

theorem uninitialized_value_construct_loop_ok (env : Env T) (d : T)
    (hv : env.ops.value_init = some d) (b first : Nat) :
    ∀ (n done : Nat) (ys : List T) (k : Nat) (w : World T),
      w.block b = some (ys.map some ++ List.replicate k none) →
      first + done = ys.length → n ≤ k →
      uninitialized_value_construct_loop env (some b) first n done w =
        .ret () { w with
          heap := w.heap.set b (some ((ys ++ List.replicate n d).map some ++ List.replicate (k - n) none)),
          ctors := w.ctors + n } := by
  intro n
  induction n with
  | zero =>
    intro done ys k w hb hd hk
    simp only [uninitialized_value_construct_loop]
    congr 1
    ext1 <;> simp [heap_set_self hb]
  | succ n ih =>
    intro done ys k w hb hd hk
    obtain ⟨k, rfl⟩ : ∃ j, k = j + 1 := ⟨k - 1, by omega⟩
    simp only [uninitialized_value_construct_loop, hv, hd]
    rw [construct_at_next ys k d hb]
    simp only []
    rw [ih (done + 1) (ys ++ [d]) k _ (block_set_same _ hb ..) (by simp; omega) (by omega)]
    congr 1
    ext1 <;> simp [List.replicate_succ]
    omega

theorem block_set_other {w : World T} {b c : Nat} (x : Option (List (Option T)))
    (hne : c ≠ b) (a d e m t g : Nat) :
    (World.mk (w.heap.set b x) a d e m t g).block c = w.block c := by
  simp only [World.block, getD_set_heap, hne, false_and, if_false]

/-- Destroying the live object that follows the slots `A`. -/
theorem destroy_at_here {w : World T} {b : Nat} (A : List (Option T)) (v : T)
    (R : List (Option T)) (hb : w.block b = some (A ++ some v :: R)) :
    w.destroy_at (some b) A.length =
      some { w with heap := w.heap.set b (some (A ++ none :: R)), dtors := w.dtors + 1 } := by
  simp only [World.destroy_at, hb, getD_at_length, World.setSlot, set_at_length]

theorem destroy_n_ok (b : Nat) (R : List (Option T)) :
    ∀ (vals : List T) (A : List (Option T)) (w : World T),
      w.block b = some (A ++ (vals.map some ++ R)) →
      destroy_n (some b) A.length vals.length w =
        some { w with
          heap := w.heap.set b (some (A ++ (List.replicate vals.length none ++ R))),
          dtors := w.dtors + vals.length } := by
  intro vals
  induction vals with
  | nil =>
    intro A w hb
    simp only [destroy_n, List.length_nil]
    congr 1
    ext1 <;> simp
    simpa using (heap_set_self hb).symm
  | cons v vs ih =>
    intro A w hb
    simp only [destroy_n, List.length_cons]
    rw [destroy_at_here A v (vs.map some ++ R) (by simpa using hb)]
    simp only []
    have key : ∀ w1 : World T, w1.block b = some (A ++ none :: (vs.map some ++ R)) →
        destroy_n (some b) (A.length + 1) vs.length w1 = some { w1 with
          heap := w1.heap.set b (some (A ++ none :: (List.replicate vs.length none ++ R))),
          dtors := w1.dtors + vs.length } := by
      intro w1 h1
      have := ih (A ++ [none]) w1 (by simpa using h1)
      simpa using this
    rw [key _ (block_set_same _ hb ..)]
    congr 1
    ext1 <;> simp [List.replicate_succ]
    omega

theorem load_here {w : World T} {b : Nat} (A : List (Option T)) (x : T)
    (R : List (Option T)) (hb : w.block b = some (A ++ some x :: R)) :
    w.load (some b) A.length = some x := by
  simp only [World.load, hb, getD_at_length]

theorem store_here {w : World T} {b : Nat} (A : List (Option T)) (x r : T)
    (R : List (Option T)) (hb : w.block b = some (A ++ some x :: R)) :
    w.store (some b) A.length r =
      some { w with heap := w.heap.set b (some (A ++ some r :: R)) } := by
  simp [World.store, hb, World.setSlot, set_at_length]

theorem uninitialized_copy_loop_ok (env : Env T) (hc : env.CopyOk) (bs bd sfirst dfirst : Nat)
    (hne : bs ≠ bd) (R : List (Option T)) :
    ∀ (vals : List T) (done : Nat) (A : List (Option T)) (ys : List T) (k : Nat) (w : World T),
      w.block bs = some (A ++ (vals.map some ++ R)) → sfirst + done = A.length →
      w.block bd = some (ys.map some ++ List.replicate k none) → dfirst + done = ys.length →
      vals.length ≤ k →
      uninitialized_copy_loop env (some bs) sfirst (some bd) dfirst vals.length done w =
        .ret () { w with
          heap := w.heap.set bd
            (some ((ys ++ vals).map some ++ List.replicate (k - vals.length) none)),
          ctors := w.ctors + vals.length } := by
  intro vals
  induction vals with
  | nil =>
    intro done A ys k w hs hsd hd hdd hk
    simp only [uninitialized_copy_loop, List.length_nil]
    congr 1
    ext1 <;> simp [heap_set_self hd]
  | cons x vs ih =>
    intro done A ys k w hs hsd hd hdd hk
    obtain ⟨k, rfl⟩ : ∃ j, k = j + 1 := ⟨k - 1, by simp at hk; omega⟩
    simp only [uninitialized_copy_loop, List.length_cons, hsd, hdd]
    rw [load_here A x (vs.map some ++ R) (by simpa using hs)]
    simp only [hc x]
    rw [construct_at_next ys k x hd]
    simp only []
    rw [ih (done + 1) (A ++ [some x]) (ys ++ [x]) k _
      ((block_set_other _ hne ..).trans (by simpa using hs))
      (by simp; omega) (block_set_same _ hd ..) (by simp; omega) (by simpa using hk)]
    congr 1
    ext1 <;> simp
    omega

theorem residual_eq {env : Env T} (hm : env.MoveOk) (x : T) :
    env.ops.move_ctor x = some (x, env.ops.residual x) := by
  obtain ⟨r, hr⟩ := hm x
  simp [ElemOps.residual, hr]

theorem heap_set_swap {α : Type} (h : List α) (b c : Nat) (x y x2 y2 : α) :
    (((h.set b x).set c y).set b x2).set c y2 = (h.set b x2).set c y2 := by
  apply List.ext_getElem?
  intro i
  simp only [List.getElem?_set, List.length_set]
  by_cases h1 : c = i <;> by_cases h2 : b = i <;> simp [h1, h2]

theorem uninitialized_move_loop_ok (env : Env T) (hm : env.MoveOk) (bs bd : Nat)
    (hne : bs ≠ bd) (R : List (Option T)) :
    ∀ (vals : List T) (A : List (Option T)) (ys : List T) (k : Nat) (w : World T),
      w.block bs = some (A ++ (vals.map some ++ R)) →
      w.block bd = some (ys.map some ++ List.replicate k none) → ys.length = A.length →
      vals.length ≤ k →
      uninitialized_move_loop env (some bs) (some bd) vals.length A.length w =
        .ret () { w with
          heap := (w.heap.set bs (some (A ++ ((vals.map env.ops.residual).map some ++ R)))).set bd
            (some ((ys ++ vals).map some ++ List.replicate (k - vals.length) none)),
          ctors := w.ctors + vals.length,
          moves := w.moves + vals.length } := by
  intro vals
  induction vals with
  | nil =>
    intro A ys k w hs hd hl hk
    simp only [uninitialized_move_loop, List.length_nil]
    congr 1
    have h1 : w.heap.set bs (some (A ++ R)) = w.heap := heap_set_self (by simpa using hs)
    ext1 <;> simp [h1, heap_set_self hd]
  | cons x vs ih =>
    intro A ys k w hs hd hl hk
    obtain ⟨k, rfl⟩ : ∃ j, k = j + 1 := ⟨k - 1, by simp at hk; omega⟩
    simp only [uninitialized_move_loop, List.length_cons]
    rw [load_here A x (vs.map some ++ R) (by simpa using hs)]
    simp only [residual_eq hm x]
    rw [store_here A x (env.ops.residual x) (vs.map some ++ R) (by simpa using hs)]
    simp only []
    have hd1 : (World.mk (w.heap.set bs (some (A ++ some (env.ops.residual x) ::
        (vs.map some ++ R)))) w.allocs w.deallocs w.ctors w.moves w.dtors w.assigns).block bd
        = some (ys.map some ++ List.replicate (k + 1) none) :=
      (block_set_other _ hne.symm ..).trans hd
    rw [← hl, construct_at_next ys k x hd1]
    simp only []
    have key := ih (A ++ [some (env.ops.residual x)]) (ys ++ [x]) k
      (World.mk ((w.heap.set bs (some (A ++ some (env.ops.residual x) ::
        (vs.map some ++ R)))).set bd (some ((ys ++ [x]).map some ++ List.replicate k none)))
        w.allocs w.deallocs (w.ctors + 1) (w.moves + 1) w.dtors w.assigns)
      ?_ ?_ (by simp [hl]) (by simpa using hk)
    · simp only [List.length_append, List.length_singleton, ← hl] at key
      rw [key]
      congr 1
      ext1
      · simp only [List.append_assoc, List.singleton_append, List.map_cons]
        rw [heap_set_swap]
        simp
      all_goals simp
      all_goals omega
    · have h0 : (World.mk (w.heap.set bs (some (A ++ some (env.ops.residual x) ::
          (vs.map some ++ R)))) w.allocs w.deallocs w.ctors w.moves w.dtors w.assigns).block bs
          = some (A ++ some (env.ops.residual x) :: (vs.map some ++ R)) :=
        block_set_same _ hs ..
      have h1 := (block_set_other (w := World.mk (w.heap.set bs (some (A ++
        some (env.ops.residual x) :: (vs.map some ++ R)))) w.allocs w.deallocs w.ctors w.moves
        w.dtors w.assigns) (some ((ys ++ [x]).map some ++ List.replicate k none)) hne
        w.allocs w.deallocs (w.ctors + 1) (w.moves + 1) w.dtors w.assigns).trans h0
      simpa using h1
    · exact block_set_same _ hd1 ..

theorem assign_at_here (env : Env T) (ha : env.AssignOk) {w : World T} {bd bs : Nat}
    (A : List (Option T)) (a : T) (R : List (Option T))
    (A2 : List (Option T)) (x : T) (R2 : List (Option T)) (hl : A2.length = A.length)
    (hd : w.block bd = some (A ++ some a :: R)) (hs : w.block bs = some (A2 ++ some x :: R2)) :
    w.assign_at env (some bd) A.length (some bs) A.length =
      .ret () { w with heap := w.heap.set bd (some (A ++ some x :: R)),
                       assigns := w.assigns + 1 } := by
  unfold World.assign_at
  rw [load_here A a R hd]
  simp only []
  rw [← hl, load_here A2 x R2 hs]
  simp only [ha a x]
  rw [hl, store_here A a x R hd]

theorem assign_loop_ok (env : Env T) (ha : env.AssignOk) (bd bs : Nat) (hne : bs ≠ bd)
    (R R2 : List (Option T)) :
    ∀ (news olds : List T) (A A2 : List (Option T)) (w : World T),
      olds.length = news.length → A2.length = A.length →
      w.block bd = some (A ++ (olds.map some ++ R)) →
      w.block bs = some (A2 ++ (news.map some ++ R2)) →
      Vector.assign_loop env (some bd) (some bs) news.length A.length w =
        .ret () { w with
          heap := w.heap.set bd (some (A ++ (news.map some ++ R))),
          assigns := w.assigns + news.length } := by
  intro news
  induction news with
  | nil =>
    intro olds A A2 w hlen hl hd hs
    have : olds = [] := List.length_eq_zero.mp (by simpa using hlen)
    subst this
    simp only [Vector.assign_loop, List.length_nil]
    congr 1
    ext1 <;> simp
    simpa using (heap_set_self hd).symm
  | cons x vs ih =>
    intro olds A A2 w hlen hl hd hs
    obtain ⟨a, os, rfl⟩ : ∃ a os, olds = a :: os := by
      cases olds with
      | nil => simp at hlen
      | cons a os => exact ⟨a, os, rfl⟩
    simp only [Vector.assign_loop, List.length_cons]
    rw [assign_at_here env ha A a (os.map some ++ R) A2 x (vs.map some ++ R2) hl
      (by simpa using hd) (by simpa using hs)]
    simp only []
    have key := ih os (A ++ [some x]) (A2 ++ [some x])
      (World.mk (w.heap.set bd (some (A ++ some x :: (os.map some ++ R))))
        w.allocs w.deallocs w.ctors w.moves w.dtors (w.assigns + 1))
      (by simpa using hlen) (by simp [hl]) ?_ ?_
    · simp only [List.length_append, List.length_singleton] at key
      rw [key]
      congr 1
      ext1 <;> simp
      omega
    · have h0 := block_set_same (some (A ++ some x :: (os.map some ++ R))) hd
        w.allocs w.deallocs w.ctors w.moves w.dtors (w.assigns + 1)
      simpa using h0
    · have h0 := (block_set_other (w := w) (some (A ++ some x :: (os.map some ++ R))) hne
        w.allocs w.deallocs w.ctors w.moves w.dtors (w.assigns + 1)).trans hs
      simpa using h0

/-! ## Reallocation -/

theorem size_t_room_eq (sizeof_T n : Nat) (hpos : 0 < sizeof_T)
    (hfit : n * sizeof_T < 2 ^ 64) : size_t_room sizeof_T n = n := by
  unfold size_t_room
  rw [Nat.mod_eq_of_lt hfit]
  exact Nat.mul_div_cancel n hpos

theorem sized_ok (env : Env T) (n : Nat) (w : World T) (hs : env.Serves w.heap.length n) :
    _memory.sized env n w = .ret { _buf := some w.heap.length, _capacity := n }
      { w with heap := w.heap ++ [some (List.replicate n none)], allocs := w.allocs + 1 } := by
  simp [_memory.sized, _memory._allocate, hs.1, size_t_room_eq _ _ hs.2.1 hs.2.2]

theorem block_mk (h : List (Option (List (Option T)))) (a d e m t g c : Nat) :
    (World.mk h a d e m t g).block c = h.getD c none := rfl

theorem getD_append_old {α : Type} (h : List (Option α)) (x : Option α) (c : Nat)
    (hc : c < h.length) : (h ++ [x]).getD c none = h.getD c none := by
  simp [List.getD_eq_getElem?_getD, List.getElem?_append_left hc]

theorem getD_append_new {α : Type} (h : List (Option α)) (x : Option α) :
    (h ++ [x]).getD h.length none = x := by
  simp [List.getD_eq_getElem?_getD]

theorem getD_set_same {α : Type} (h : List (Option α)) (b : Nat) (x : Option α)
    (hb : b < h.length) : (h.set b x).getD b none = x := by
  rw [getD_set_heap]; simp [hb]

theorem getD_set_other {α : Type} (h : List (Option α)) (b c : Nat) (x : Option α)
    (hne : c ≠ b) : (h.set b x).getD c none = h.getD c none := by
  rw [getD_set_heap]; simp [hne]

theorem layout_length (xs : List T) (cap : Nat) (h : xs.length ≤ cap) :
    (layout xs cap).length = cap := by
  simp [layout]; omega

theorem Vector.Holds.nil_of_null {w : World T} {v : Vector} {xs : List T} (h : v.Holds w xs)
    (hb : v._data._buf = none) : xs = [] ∧ v._size = 0 ∧ v._data._capacity = 0 := by
  obtain ⟨h1, h2, h3⟩ := h
  rw [hb] at h3
  simp only at h3
  have : xs.length = 0 := by omega
  exact ⟨List.length_eq_zero.mp this, by omega, h3⟩

theorem reserve_grow (env : Env T) (hm : env.MoveOk) {w : World T}
    {v : Vector} {xs : List T} (h : v.Holds w xs) (n : Nat) (hn : v._data._capacity < n)
    (hs : env.Serves w.heap.length n) :
    ∃ w2, v.reserve env n w =
        .ret () ({ _data := { _buf := some w.heap.length, _capacity := n }, _size := v._size }, w2)
      ∧ Realloc w w2 v._data._buf xs n := by
  obtain ⟨⟨buf, cap⟩, sz⟩ := v
  simp only at hn
  cases buf with
  | none =>
    obtain ⟨rfl, hs, hc⟩ := Vector.Holds.nil_of_null h rfl
    simp only at hs hc
    subst hs hc
    refine ⟨{ w with heap := w.heap ++ [some (List.replicate n none)],
                      allocs := w.allocs + 1 }, ?_, ?_⟩
    · simp only [Vector.reserve, hn, if_true, sized_ok env n w hs, uninitialized_move_n,
        uninitialized_move_loop, destroy_n, _memory.Swap, _memory.dtor, _memory._deallocate]
    · constructor <;> simp [block_mk, getD_append_new, layout]
      intro c hc
      simp [World.block, List.getElem?_append_left hc]
  | some b =>
    obtain ⟨h1, h2, h3⟩ := h
    simp only at h1 h2 h3
    subst h1
    have hb := World.block_lt h3
    have hne : b ≠ w.heap.length := by omega
    have hb1 : (World.mk (w.heap ++ [some (List.replicate n none)]) (w.allocs + 1) w.deallocs
        w.ctors w.moves w.dtors w.assigns).block b
        = some ([] ++ (xs.map some ++ List.replicate (cap - xs.length) none)) := by
      rw [block_mk, getD_append_old _ _ _ hb]; exact h3
    have hd1 : (World.mk (w.heap ++ [some (List.replicate n none)]) (w.allocs + 1) w.deallocs
        w.ctors w.moves w.dtors w.assigns).block w.heap.length
        = some (([] : List T).map some ++ List.replicate n none) := by
      rw [block_mk, getD_append_new]; rfl
    have hmv := uninitialized_move_loop_ok env hm b w.heap.length hne
      (List.replicate (cap - xs.length) none) xs [] [] n _ hb1 hd1 rfl (by omega)
    simp only [List.length_nil, List.nil_append] at hmv
    have hb2 : (World.mk (((w.heap ++ [some (List.replicate n none)]).set b
          (some ((xs.map env.ops.residual).map some ++ List.replicate (cap - xs.length) none))).set
          w.heap.length (some (xs.map some ++ List.replicate (n - xs.length) none)))
        (w.allocs + 1) w.deallocs (w.ctors + xs.length) (w.moves + xs.length) w.dtors
        w.assigns).block b
        = some ([] ++ ((xs.map env.ops.residual).map some
            ++ List.replicate (cap - xs.length) none)) := by
      rw [block_mk, getD_set_other _ _ _ _ hne, getD_set_same _ _ _ (by simp; omega)]
      rfl
    have hds := destroy_n_ok b (List.replicate (cap - xs.length) none)
      (xs.map env.ops.residual) [] _ hb2
    simp only [List.length_nil, List.nil_append, List.length_map] at hds
    refine ⟨World.mk (((((w.heap ++ [some (List.replicate n none)]).set b
          (some ((xs.map env.ops.residual).map some ++ List.replicate (cap - xs.length) none))).set
          w.heap.length (some (xs.map some ++ List.replicate (n - xs.length) none))).set b
          (some (List.replicate xs.length none ++ List.replicate (cap - xs.length) none))).set b
          none)
        (w.allocs + 1) (w.deallocs + 1) (w.ctors + xs.length) (w.moves + xs.length)
        (w.dtors + xs.length) w.assigns, ?_, ?_⟩
    · simp only [Vector.reserve, hn, if_true, sized_ok env n w hs, uninitialized_move_n, hmv, hds,
        _memory.Swap, _memory.dtor, _memory._deallocate]
      rw [block_mk, getD_set_same _ _ _ (by simp; omega)]
    · constructor
      · simp
      · rw [block_mk, getD_set_other _ _ _ _ hne.symm, getD_set_other _ _ _ _ hne.symm,
          getD_set_same _ _ _ (by simp)]
        rfl
      · intro c hc hcb
        have hcb2 : c ≠ b := fun e => hcb (by rw [e])
        rw [block_mk, getD_set_other _ _ _ _ hcb2, getD_set_other _ _ _ _ hcb2,
          getD_set_other _ _ _ _ (by omega), getD_set_other _ _ _ _ hcb2,
          getD_append_old _ _ _ hc]
        rfl
      · intro c hc
        cases hc
        rw [block_mk, getD_set_same _ _ _ (by simp; omega)]
      all_goals simp

/-! ## Valid objects and frames -/

theorem layout_getD (xs : List T) (cap i : Nat) : (layout xs cap).getD i none = xs[i]? := by
  unfold layout
  rw [List.getD_eq_getElem?_getD]
  by_cases hi : i < xs.length
  · rw [List.getElem?_append_left (by simpa using hi)]
    simp [hi]
  · rw [List.getElem?_append_right (by simpa using hi)]
    rw [List.getElem?_eq_none (Nat.le_of_not_lt hi)]
    simp only [List.getElem?_replicate, List.length_map]
    split <;> rfl

/-- Reading a valid object: `operator[]` yields exactly the elements it holds. -/
theorem Vector.Holds.get {w : World T} {v : Vector} {xs : List T} (h : v.Holds w xs) (i : Nat) :
    v.get w i = xs[i]? := by
  obtain ⟨h1, h2, h3⟩ := h
  unfold Vector.get World.load
  cases hb : v._data._buf with
  | none =>
    rw [hb] at h3
    simp only at h3
    have : xs = [] := List.length_eq_zero.mp (by omega)
    simp [this]
  | some b =>
    rw [hb] at h3
    simp only at h3
    simp only [h3, layout_getD]

theorem Vector.Holds.size {w : World T} {v : Vector} {xs : List T} (h : v.Holds w xs) :
    v.size = xs.length := h.1

theorem Vector.Holds.le {w : World T} {v : Vector} {xs : List T} (h : v.Holds w xs) :
    xs.length ≤ v.capacity := h.2.1

theorem Vector.Holds.live {w : World T} {v : Vector} {xs : List T} (h : v.Holds w xs) {b : Nat}
    (hb : v._data._buf = some b) : b < w.heap.length := by
  obtain ⟨h1, h2, h3⟩ := h
  rw [hb] at h3
  exact World.block_lt h3

/-- A valid object stays valid, with the same contents, when the world changes only in
another buffer and in fresh blocks. -/
theorem Vector.Holds.frame {w w2 : World T} {a : Vector} {xs : List T} {p : Option Nat}
    (h : a.Holds w xs) (hf : World.Frame p w w2) (hp : a._data._buf = none ∨ a._data._buf ≠ p) :
    a.Holds w2 xs := by
  have hl := fun b hb => Vector.Holds.live h (b := b) hb
  obtain ⟨h1, h2, h3⟩ := h
  refine ⟨h1, h2, ?_⟩
  cases hb : a._data._buf with
  | none => rw [hb] at h3; exact h3
  | some b =>
    rw [hb] at h3
    simp only at h3 ⊢
    rw [hf.2 b (hl b hb) ?_]
    · exact h3
    · rcases hp with hp | hp
      · rw [hb] at hp; cases hp
      · rw [hb] at hp; exact fun e => hp e.symm

theorem Apart.kept {w : World T} {a b b2 : Vector} {xs : List T} (h : a.Holds w xs)
    (hab : a.Apart b) (hk : w.KeptOrFresh b._data._buf b2._data._buf) : a.Apart b2 := by
  rcases hab with hab | hab
  · exact Or.inl hab
  · rcases hk with hk | ⟨c, hc, hlen⟩
    · right; rw [hk]; exact hab
    · cases ha : a._data._buf with
      | none => exact Or.inl ha
      | some x =>
        right
        rw [hc, ha]
        intro e
        cases e
        have := Vector.Holds.live h ha
        omega

theorem Frame.refl (p : Option Nat) (w : World T) : World.Frame p w w :=
  ⟨Nat.le_refl _, fun _ _ _ => rfl⟩

theorem Frame.trans {p q : Option Nat} {w1 w2 w3 : World T} (h12 : World.Frame p w1 w2)
    (hq : w1.KeptOrFresh p q) (h23 : World.Frame q w2 w3) : World.Frame p w1 w3 := by
  refine ⟨Nat.le_trans h12.1 h23.1, ?_⟩
  intro c hc hpc
  rw [h23.2 c (Nat.lt_of_lt_of_le hc h12.1) ?_, h12.2 c hc hpc]
  rcases hq with hq | ⟨d, hd, hlen⟩
  · rw [hq]; exact hpc
  · rw [hd]; intro e; cases e; omega

theorem Realloc.toFrame {w w2 : World T} {p : Option Nat} {xs : List T} {n : Nat}
    (h : Realloc w w2 p xs n) : World.Frame p w w2 :=
  ⟨by rw [h.len]; omega, h.frame⟩

/-- The member `reserve(n)` on a valid object: it returns, the contents are kept, and the capacity is
the larger of `n` and the old capacity. -/
theorem reserve_ok (env : Env T) (hm : env.MoveOk) {w : World T}
    {v : Vector} {xs : List T} (h : v.Holds w xs) (n : Nat)
    (hs : v._data._capacity < n → env.Serves w.heap.length n) :
    ∃ v2 w2, v.reserve env n w = .ret () (v2, w2) ∧ v2.Holds w2 xs ∧
      v2._size = v._size ∧ v2._data._capacity = max v._data._capacity n ∧
      World.Frame v._data._buf w w2 ∧ w.KeptOrFresh v._data._buf v2._data._buf := by
  by_cases hn : v._data._capacity < n
  · obtain ⟨w2, hr, hre⟩ := reserve_grow env hm h n hn (hs hn)
    refine ⟨_, w2, hr, ⟨h.1, by simpa using Nat.le_trans h.2.1 (Nat.le_of_lt hn), hre.fresh⟩,
      rfl, ?_, hre.toFrame, Or.inr ⟨_, rfl, Nat.le_refl _⟩⟩
    simp only
    omega
  · refine ⟨v, w, by simp [Vector.reserve, hn], h, rfl, ?_, Frame.refl _ _, Or.inl rfl⟩
    omega

/-! ## The member functions on valid objects -/

theorem frame_set (w : World T) (b : Nat) (x : Option (List (Option T))) (a d e m t g : Nat) :
    World.Frame (some b) w (World.mk (w.heap.set b x) a d e m t g) := by
  refine ⟨by simp, ?_⟩
  intro c hc hne
  have : c ≠ b := fun e => hne (by rw [e])
  rw [block_mk, getD_set_other _ _ _ _ this]
  rfl

/-- Constructing one more element behind the live ones, when there is room. -/
theorem construct_back {w : World T} {v : Vector} {xs : List T} (h : v.Holds w xs)
    (hlt : xs.length < v._data._capacity) (x : T) :
    ∃ w2, w.construct_at v._data._buf v._size x = some w2 ∧
      Vector.Holds w2 { v with _size := v._size + 1 } (xs ++ [x]) ∧
      World.Frame v._data._buf w w2 ∧ w2.moves = w.moves ∧ w2.allocs = w.allocs := by
  obtain ⟨h1, h2, h3⟩ := h
  cases hb : v._data._buf with
  | none => rw [hb] at h3; simp only at h3; omega
  | some b =>
    rw [hb] at h3
    simp only at h3
    obtain ⟨k, hk⟩ : ∃ k, v._data._capacity - xs.length = k + 1 :=
      ⟨v._data._capacity - xs.length - 1, by omega⟩
    have h4 : w.block b = some (xs.map some ++ List.replicate (k + 1) none) := by
      rw [h3, layout, hk]
    refine ⟨_, by rw [h1]; exact construct_at_next xs k x h4, ⟨by simp [h1], by simp; omega, ?_⟩,
      frame_set .., rfl, rfl⟩
    simp only [hb]
    rw [block_set_same _ h4, layout]
    have : v._data._capacity - (xs ++ [x]).length = k := by simp; omega
    rw [this]

/-- The common body of `push_back` and `emplace_back` on a valid object, when nothing throws. -/
theorem append_ok (env : Env T) (hm : env.MoveOk) {w : World T}
    {v : Vector} {xs : List T} (h : v.Holds w xs) (x : T)
    (hs : v._size = v._data._capacity →
      env.Serves w.heap.length (if v._size = 0 then 1 else 2 * v._size)) :
    ∃ v2 w2, v.append env (some x) w = .ret xs.length (v2, w2) ∧ v2.Holds w2 (xs ++ [x]) ∧
      v2._data._capacity =
        (if v._size = v._data._capacity then max 1 (2 * v._data._capacity)
         else v._data._capacity) ∧
      World.Frame v._data._buf w w2 ∧ w.KeptOrFresh v._data._buf v2._data._buf ∧
      w2.moves = w.moves + (if v._size = v._data._capacity then xs.length else 0) := by
  by_cases hfull : v._size = v._data._capacity
  · have hn : v._data._capacity < (if v._size = 0 then 1 else 2 * v._size) := by
      split <;> omega
    obtain ⟨w1, hr, hre⟩ := reserve_grow env hm h _ hn (hs hfull)
    have hH : Vector.Holds w1 (Vector.mk (_memory.mk (some w.heap.length)
        (if v._size = 0 then 1 else 2 * v._size)) v._size) xs :=
      ⟨h.1, by have := h.1; simp only; split <;> omega, hre.fresh⟩
    obtain ⟨w2, hc, hH2, hf2, hmv, _⟩ := construct_back hH
      (by have := h.1; simp only; split <;> omega) x
    refine ⟨_, w2, ?_, hH2, ?_, Frame.trans hre.toFrame (Or.inr ⟨_, rfl, Nat.le_refl _⟩) hf2,
      Or.inr ⟨_, rfl, Nat.le_refl _⟩, ?_⟩
    · simp only [Vector.append, hfull, if_true] at hr ⊢
      rw [hr]
      simp only at hc ⊢
      rw [← hfull, hc, h.1]
    · simp only [hfull, if_true]
      split <;> omega
    · rw [hmv, hre.moves]; simp [hfull]
  · have hlt : xs.length < v._data._capacity := by have := h.1; have := h.2.1; omega
    obtain ⟨w2, hc, hH2, hf2, hmv, _⟩ := construct_back h hlt x
    refine ⟨_, w2, ?_, hH2, by simp [hfull], hf2, Or.inl rfl, by simp [hfull, hmv]⟩
    simp only [Vector.append, hfull, if_false, hc]
    rw [h.1]

theorem push_back_ok (env : Env T) (hm : env.MoveOk) (hc : env.CopyOk)
    {w : World T} {v : Vector} {xs : List T} (h : v.Holds w xs) (x : T)
    (hs : v._size = v._data._capacity →
      env.Serves w.heap.length (if v._size = 0 then 1 else 2 * v._size)) :
    ∃ v2 w2, v.push_back env x w = .ret () (v2, w2) ∧ v2.Holds w2 (xs ++ [x]) ∧
      v2._data._capacity =
        (if v._size = v._data._capacity then max 1 (2 * v._data._capacity)
         else v._data._capacity) ∧
      World.Frame v._data._buf w w2 ∧ w.KeptOrFresh v._data._buf v2._data._buf ∧
      w2.moves = w.moves + (if v._size = v._data._capacity then xs.length else 0) := by
  obtain ⟨v2, w2, hr, rest⟩ := append_ok env hm h x hs
  exact ⟨v2, w2, by simp only [Vector.push_back, hc x, hr], rest⟩

theorem pop_back_ok {w : World T} {v : Vector} {xs : List T} (h : v.Holds w xs)
    (hne : xs ≠ []) :
    ∃ w2, v.pop_back w = .ret () ({ v with _size := v._size - 1 }, w2) ∧
      Vector.Holds w2 { v with _size := v._size - 1 } xs.dropLast ∧
      World.Frame v._data._buf w w2 := by
  obtain ⟨h1, h2, h3⟩ := h
  obtain ⟨ys, x, rfl⟩ : ∃ ys x, xs = ys ++ [x] :=
    ⟨xs.dropLast, xs.getLast hne, (List.dropLast_append_getLast hne).symm⟩
  simp only [List.length_append, List.length_singleton] at h1 h2
  cases hb : v._data._buf with
  | none => rw [hb] at h3; simp only at h3; omega
  | some b =>
    rw [hb] at h3
    simp only at h3
    have h4 : w.block b = some (ys.map some ++ some x ::
        List.replicate (v._data._capacity - (ys.length + 1)) none) := by
      rw [h3, layout]; simp
    have hd := destroy_at_here (ys.map some) x _ h4
    simp only [List.length_map] at hd
    refine ⟨World.mk (w.heap.set b (some (ys.map some ++ none ::
        List.replicate (v._data._capacity - (ys.length + 1)) none))) w.allocs w.deallocs w.ctors
        w.moves (w.dtors + 1) w.assigns, ?_, ⟨by simp [h1], by simp; omega, ?_⟩, frame_set ..⟩
    · have : v._size ≠ 0 := by omega
      simp only [Vector.pop_back, this, if_false, h1, Nat.add_sub_cancel, hd, hb]
      simp
    · simp only [hb]
      rw [block_set_same _ h4, layout, List.dropLast_concat]
      have : v._data._capacity - ys.length = (v._data._capacity - (ys.length + 1)) + 1 := by
        omega
      rw [this, List.replicate_succ]

theorem clear_ok {w : World T} {v : Vector} {xs : List T} (h : v.Holds w xs) :
    ∃ w2, v.clear w = .ret () ({ v with _size := 0 }, w2) ∧
      Vector.Holds w2 { v with _size := 0 } [] ∧ World.Frame v._data._buf w w2 ∧
      w2.heap.length = w.heap.length := by
  obtain ⟨h1, h2, h3⟩ := h
  cases hb : v._data._buf with
  | none =>
    rw [hb] at h3; simp only at h3
    have h0 : v._size = 0 := by omega
    exact ⟨w, by simp [Vector.clear, hb, h0, destroy_n], ⟨rfl, Nat.zero_le _, by simp [hb, h3]⟩,
      Frame.refl _ _, rfl⟩
  | some b =>
    rw [hb] at h3
    simp only at h3
    have h4 : w.block b = some ([] ++ (xs.map some ++
        List.replicate (v._data._capacity - xs.length) none)) := by rw [h3, layout]; rfl
    have hd := destroy_n_ok b _ xs [] w h4
    simp only [List.length_nil, List.nil_append] at hd
    refine ⟨World.mk (w.heap.set b (some (List.replicate xs.length none ++
        List.replicate (v._data._capacity - xs.length) none))) w.allocs w.deallocs w.ctors
        w.moves (w.dtors + xs.length) w.assigns,
      by simp only [Vector.clear, hb, h1, hd], ⟨rfl, Nat.zero_le _, ?_⟩,
      frame_set .., by simp⟩
    simp only [hb]
    rw [block_set_same _ h4, layout]
    simp only [List.map_nil, List.nil_append, List.length_nil, Nat.sub_zero,
      List.append_replicate_replicate]
    congr 2
    omega

theorem layout_set (xs : List T) (cap i : Nat) (x : T) (hi : i < xs.length) :
    (layout xs cap).set i (some x) = layout (xs.set i x) cap := by
  unfold layout
  rw [List.set_append_left _ _ (by simpa using hi)]
  simp [List.map_set]

theorem write_ok (env : Env T) (has : env.AssignOk) {w : World T} {v : Vector} {xs : List T}
    (h : v.Holds w xs) (i : Nat) (x : T) (hi : i < xs.length) :
    ∃ w2, v.write env i x w = .ret () (v, w2) ∧ v.Holds w2 (xs.set i x) ∧
      World.Frame v._data._buf w w2 ∧ w2.heap.length = w.heap.length := by
  have hg := h.get i
  obtain ⟨h1, h2, h3⟩ := h
  cases hb : v._data._buf with
  | none => rw [hb] at h3; simp only at h3; omega
  | some b =>
    rw [hb] at h3
    simp only at h3
    have hL := layout_length xs _ h2
    refine ⟨World.mk (w.heap.set b (some (layout (xs.set i x) v._data._capacity)))
      w.allocs w.deallocs w.ctors w.moves w.dtors (w.assigns + 1), ?_,
      ⟨by simp [h1], by simp; omega, ?_⟩, frame_set .., by simp⟩
    · unfold Vector.get at hg
      simp only [Vector.write, hg, List.getElem?_eq_getElem hi, has]
      simp only [World.store, hb, h3, hL, Nat.lt_of_lt_of_le hi h2, if_true, World.setSlot]
      rw [has xs[i] x]
      simp only [layout_set xs _ i x hi]
    · simp only [hb]
      rw [block_set_same _ h3]

theorem Vector.Holds.buf_of_pos {w : World T} {v : Vector} {xs : List T} (h : v.Holds w xs)
    (hpos : 0 < v._data._capacity) :
    ∃ b, v._data._buf = some b ∧ w.block b = some (layout xs v._data._capacity) := by
  obtain ⟨h1, h2, h3⟩ := h
  cases hb : v._data._buf with
  | none => rw [hb] at h3; simp only at h3; omega
  | some b => rw [hb] at h3; exact ⟨b, rfl, h3⟩

/-- The member `resize(n)` on a valid object, when nothing throws: the first `n` old elements,
then `n - size()` value-initialised ones. -/
theorem resize_ok (env : Env T) (hm : env.MoveOk) (d : T)
    (hv : env.ops.value_init = some d) {w : World T}
    {v : Vector} {xs : List T} (h : v.Holds w xs) (n : Nat)
    (hsv : v._data._capacity < n → env.Serves w.heap.length n) :
    ∃ v2 w2, v.resize env n w = .ret () (v2, w2) ∧
      v2.Holds w2 (xs.take n ++ List.replicate (n - xs.length) d) ∧
      v2._data._capacity = max v._data._capacity n ∧
      World.Frame v._data._buf w w2 ∧ w.KeptOrFresh v._data._buf v2._data._buf := by
  obtain ⟨v1, w1, hr, hH, hs, hcap, hF, hK⟩ := reserve_ok env hm h n hsv
  have hsz : v1._size = xs.length := hH.1
  have hle : xs.length ≤ v1._data._capacity := hH.2.1
  have hK2 : w.KeptOrFresh v._data._buf (Vector.mk v1._data n)._data._buf := hK
  rcases Nat.lt_trichotomy v1._size n with hlt | heq | hgt
  · obtain ⟨b, hb, hblk⟩ := hH.buf_of_pos (by omega)
    have hblk2 : w1.block b = some (xs.map some ++
        List.replicate (v1._data._capacity - xs.length) none) := hblk
    have hl := uninitialized_value_construct_loop_ok env d hv b v1._size (n - v1._size) 0 xs
      (v1._data._capacity - xs.length) w1 hblk2 (by omega) (by omega)
    obtain ⟨w2, hw2⟩ : ∃ w2, w2 = World.mk (w1.heap.set b (some ((xs ++
        List.replicate (n - v1._size) d).map some ++
        List.replicate (v1._data._capacity - xs.length - (n - v1._size)) none)))
        w1.allocs w1.deallocs (w1.ctors + (n - v1._size)) w1.moves w1.dtors w1.assigns := ⟨_, rfl⟩
    rw [← hw2] at hl
    refine ⟨Vector.mk v1._data n, w2, ?_, ⟨?_, ?_, ?_⟩, hcap,
      Frame.trans hF hK (by rw [hb, hw2]; exact frame_set ..), hK2⟩
    · simp only [Vector.resize, hr, hlt, if_true, uninitialized_value_construct_n, hb, hl]
    · simp; omega
    · simp; omega
    · simp only [hb]
      rw [hw2, block_set_same _ hblk2, layout, List.take_of_length_le (by omega), hsz]
      congr 3
      simp; omega
  · subst heq
    refine ⟨Vector.mk v1._data v1._size, w1, ?_, ?_, hcap, hF, hK⟩
    · simp only [Vector.resize, hr, Nat.lt_irrefl, if_false, gt_iff_lt]
    · rw [hsz, List.take_length, Nat.sub_self]
      simp only [List.replicate_zero, List.append_nil]
      exact ⟨rfl, hH.2.1, hH.2.2⟩
  · obtain ⟨b, hb, hblk⟩ := hH.buf_of_pos (by omega)
    have hblk2 : w1.block b = some ((xs.take n).map some ++ ((xs.drop n).map some ++
        List.replicate (v1._data._capacity - xs.length) none)) := by
      rw [hblk, layout, ← List.append_assoc, ← List.map_append, List.take_append_drop]
    have hl := destroy_n_ok b _ (xs.drop n) ((xs.take n).map some) w1 hblk2
    have e1 : ((xs.take n).map some).length = n := by simp; omega
    have e2 : (xs.drop n).length = v1._size - n := by simp; omega
    rw [e1, e2] at hl
    obtain ⟨w2, hw2⟩ : ∃ w2, w2 = World.mk (w1.heap.set b (some ((xs.take n).map some ++
        (List.replicate (v1._size - n) none ++
          List.replicate (v1._data._capacity - xs.length) none))))
        w1.allocs w1.deallocs w1.ctors w1.moves (w1.dtors + (v1._size - n)) w1.assigns :=
      ⟨_, rfl⟩
    rw [← hw2] at hl
    refine ⟨Vector.mk v1._data n, w2, ?_, ⟨?_, ?_, ?_⟩, hcap,
      Frame.trans hF hK (by rw [hb, hw2]; exact frame_set ..), hK2⟩
    · have : ¬ v1._size < n := by omega
      simp only [Vector.resize, hr, this, if_false, gt_iff_lt, hgt, if_true, hb, hl]
    · simp; omega
    · simp; omega
    · simp only [hb]
      rw [hw2, block_set_same _ hblk2, layout]
      have e3 : n - xs.length = 0 := by omega
      simp only [e3, List.replicate_zero, List.append_nil, List.append_replicate_replicate]
      congr 3
      simp; omega

/-- Destroying the elements from index `n` on, as `resize`, `clear` and the copy assignment do. -/
theorem destroy_tail_ok {w : World T} {v : Vector} {xs : List T} (h : v.Holds w xs) (n : Nat)
    (hn : n ≤ xs.length) :
    ∃ w2, destroy_n v._data._buf n (xs.length - n) w = some w2 ∧
      Vector.Holds w2 { v with _size := n } (xs.take n) ∧
      World.Frame v._data._buf w w2 ∧ w2.heap.length = w.heap.length ∧
      w2.allocs = w.allocs := by
  obtain ⟨h1, h2, h3⟩ := h
  cases hb : v._data._buf with
  | none =>
    rw [hb] at h3; simp only at h3
    have h0 : xs = [] := List.length_eq_zero.mp (by omega)
    subst h0
    have hn0 : n = 0 := by simpa using hn
    subst hn0
    exact ⟨w, by simp [destroy_n], ⟨rfl, Nat.zero_le _, by simp [hb, h3]⟩, Frame.refl _ _,
      rfl, rfl⟩
  | some b =>
    rw [hb] at h3
    simp only at h3
    have hblk2 : w.block b = some ((xs.take n).map some ++ ((xs.drop n).map some ++
        List.replicate (v._data._capacity - xs.length) none)) := by
      rw [h3, layout, ← List.append_assoc, ← List.map_append, List.take_append_drop]
    have hl := destroy_n_ok b _ (xs.drop n) ((xs.take n).map some) w hblk2
    have e1 : ((xs.take n).map some).length = n := by simp; omega
    have e2 : (xs.drop n).length = xs.length - n := by simp
    rw [e1, e2] at hl
    obtain ⟨w2, hw2⟩ : ∃ w2, w2 = World.mk (w.heap.set b (some ((xs.take n).map some ++
        (List.replicate (xs.length - n) none ++
          List.replicate (v._data._capacity - xs.length) none))))
        w.allocs w.deallocs w.ctors w.moves (w.dtors + (xs.length - n)) w.assigns :=
      ⟨_, rfl⟩
    rw [← hw2] at hl
    refine ⟨w2, hl, ⟨by simp; omega, by simp; omega, ?_⟩, by rw [hw2]; exact frame_set ..,
      by rw [hw2]; simp, by rw [hw2]⟩
    simp only [hb]
    rw [hw2, block_set_same _ hblk2, layout]
    simp only [List.append_replicate_replicate]
    congr 3
    simp; omega

/-- The destructor of a valid object runs without undefined behaviour and touches only its
own buffer. -/
theorem dtor_ok {w : World T} {v : Vector} {xs : List T} (h : v.Holds w xs) :
    ∃ w2, v.dtor w = some w2 ∧ World.Frame v._data._buf w w2 ∧
      w2.heap.length = w.heap.length ∧ w2.allocs = w.allocs := by
  obtain ⟨w1, hd, hH, hF, hlen, hal⟩ := destroy_tail_ok h 0 (Nat.zero_le _)
  rw [Nat.sub_zero, ← h.1] at hd
  cases hb : v._data._buf with
  | none =>
    refine ⟨w1, ?_, by rw [← hb]; exact hF, hlen, hal⟩
    rw [hb] at hd
    simp only [Vector.dtor, hd, _memory.dtor, _memory._deallocate, hb]
  | some b =>
    obtain ⟨_, _, h3⟩ := hH
    simp only [hb] at h3
    have hF1 : World.Frame (some b) w w1 := by rw [← hb]; exact hF
    refine ⟨World.mk (w1.heap.set b none) w1.allocs (w1.deallocs + 1) w1.ctors w1.moves
      w1.dtors w1.assigns, ?_, Frame.trans hF1 (Or.inl rfl) (frame_set ..), by simp [hlen], hal⟩
    rw [hb] at hd
    simp only [Vector.dtor, hd, _memory.dtor, _memory._deallocate, hb, h3]

/-- The copy constructor on a valid source, when nothing throws: a fresh block of exactly
`size()` slots holding the same elements; no existing block changes. -/
theorem copy_ok (env : Env T) (hc : env.CopyOk) {w : World T}
    {a : Vector} {xs : List T} (h : a.Holds w xs) (hs : env.Serves w.heap.length a._size) :
    ∃ w2, Vector.copy env a w =
        .ret (Vector.mk (_memory.mk (some w.heap.length) a._size) a._size) w2 ∧
      Vector.Holds w2 (Vector.mk (_memory.mk (some w.heap.length) a._size) a._size) xs ∧
      World.Frame none w w2 ∧ w2.heap.length = w.heap.length + 1 ∧
      w2.allocs = w.allocs + 1 := by
  obtain ⟨h1, h2, h3⟩ := h
  cases hb : a._data._buf with
  | none =>
    rw [hb] at h3; simp only at h3
    have h0 : xs = [] := List.length_eq_zero.mp (by omega)
    subst h0
    simp only [List.length_nil] at h1
    have hs0 : env.Serves w.heap.length 0 := by rw [← h1]; exact hs
    refine ⟨World.mk (w.heap ++ [some (List.replicate 0 none)]) (w.allocs + 1) w.deallocs
      w.ctors w.moves w.dtors w.assigns, ?_, ⟨by simp [h1], by simp, ?_⟩, ⟨by simp, ?_⟩,
      by simp, rfl⟩
    · simp only [Vector.copy, h1, sized_ok env _ w hs0, uninitialized_copy_n,
        uninitialized_copy_loop]
    · simp only [block_mk, getD_append_new, layout, h1]; rfl
    · intro c hc _
      rw [block_mk, getD_append_old _ _ _ hc]; rfl
  | some b =>
    rw [hb] at h3
    simp only at h3
    have hlt := World.block_lt h3
    have hne : b ≠ w.heap.length := by omega
    have hb1 : (World.mk (w.heap ++ [some (List.replicate a._size none)]) (w.allocs + 1)
        w.deallocs w.ctors w.moves w.dtors w.assigns).block b
        = some ([] ++ (xs.map some ++ List.replicate (a._data._capacity - xs.length) none)) := by
      rw [block_mk, getD_append_old _ _ _ hlt]; exact h3
    have hd1 : (World.mk (w.heap ++ [some (List.replicate a._size none)]) (w.allocs + 1)
        w.deallocs w.ctors w.moves w.dtors w.assigns).block w.heap.length
        = some (([] : List T).map some ++ List.replicate a._size none) := by
      rw [block_mk, getD_append_new]; rfl
    have hl := uninitialized_copy_loop_ok env hc b w.heap.length 0 0 hne _ xs 0 [] []
      a._size _ hb1 rfl hd1 rfl (by omega)
    simp only [List.nil_append] at hl
    obtain ⟨w2, hw2⟩ : ∃ w2, w2 = World.mk ((w.heap ++ [some (List.replicate a._size none)]).set
        w.heap.length (some (xs.map some ++ List.replicate (a._size - xs.length) none)))
        (w.allocs + 1) w.deallocs (w.ctors + xs.length) w.moves w.dtors w.assigns := ⟨_, rfl⟩
    rw [← hw2] at hl
    refine ⟨w2, ?_, ⟨by simp [h1], by simp [h1], ?_⟩, ⟨by rw [hw2]; simp, ?_⟩,
      by rw [hw2]; simp, by rw [hw2]⟩
    · simp only [Vector.copy, sized_ok env _ w hs, uninitialized_copy_n]
      rw [h1] at hl ⊢
      rw [hb, hl]
    · simp only
      rw [hw2, block_mk, getD_set_same _ _ _ (by simp)]
      rfl
    · intro c hc _
      rw [hw2, block_mk, getD_set_other _ _ _ _ (by omega), getD_append_old _ _ _ hc]
      rfl

/-- The assignment loop of the copy assignment, when the source is not longer than the target:
the first `ys.length` elements of the target become `ys`. -/
theorem assign_prefix_ok (env : Env T) (has : env.AssignOk) {w : World T} {X Y : Vector}
    {xs ys : List T} (hX : X.Holds w xs) (hY : Y.Holds w ys) (hap : X.Apart Y)
    (hle : ys.length ≤ xs.length) :
    ∃ w1, Vector.assign_loop env X._data._buf Y._data._buf ys.length 0 w = .ret () w1 ∧
      X.Holds w1 (ys ++ xs.drop ys.length) ∧ Y.Holds w1 ys ∧
      World.Frame X._data._buf w w1 ∧ w1.heap.length = w.heap.length ∧
      w1.allocs = w.allocs := by
  by_cases hys : ys = []
  · subst hys
    exact ⟨w, by simp [Vector.assign_loop], by simpa using hX, hY, Frame.refl _ _, rfl, rfl⟩
  · have hpos : 0 < ys.length := List.length_pos.mpr hys
    obtain ⟨bd, hbd, hblkd⟩ := hX.buf_of_pos (by have := hX.2.1; omega)
    obtain ⟨bs, hbs, hblks⟩ := hY.buf_of_pos (by have := hY.2.1; omega)
    have hne : bs ≠ bd := by
      rcases hap with hap | hap
      · rw [hbd] at hap; cases hap
      · rw [hbd, hbs] at hap
        exact fun e => hap (by rw [e])
    have hd : w.block bd = some ([] ++ ((xs.take ys.length).map some ++
        ((xs.drop ys.length).map some ++
          List.replicate (X._data._capacity - xs.length) none))) := by
      rw [hblkd, layout, List.nil_append, ← List.append_assoc, ← List.map_append,
        List.take_append_drop]
    have hs : w.block bs = some ([] ++ (ys.map some ++
        List.replicate (Y._data._capacity - ys.length) none)) := hblks
    have hl := assign_loop_ok env has bd bs hne _ _ ys (xs.take ys.length) [] [] w
      (by simp; omega) rfl hd hs
    simp only [List.length_nil, List.nil_append] at hl
    obtain ⟨w1, hw1⟩ : ∃ w1, w1 = World.mk (w.heap.set bd (some (ys.map some ++
        ((xs.drop ys.length).map some ++
          List.replicate (X._data._capacity - xs.length) none))))
        w.allocs w.deallocs w.ctors w.moves w.dtors (w.assigns + ys.length) := ⟨_, rfl⟩
    rw [← hw1] at hl
    have hF : World.Frame X._data._buf w w1 := by rw [hbd, hw1]; exact frame_set ..
    refine ⟨w1, by rw [hbd, hbs]; exact hl, ⟨?_, ?_, ?_⟩,
      hY.frame hF (Or.inr (by rw [hbs, hbd]; exact fun e => hne (by cases e; rfl))), hF,
      by rw [hw1]; simp, by rw [hw1]⟩
    · have := hX.1; simp; omega
    · have := hX.2.1; simp; omega
    · simp only [hbd]
      rw [hw1, block_set_same _ hd, layout]
      simp only [List.map_append, List.append_assoc]
      congr 4
      simp; omega

theorem Apart.symm_live {X Y : Vector} (hap : X.Apart Y) :
    Y._data._buf = none ∨ Y._data._buf ≠ X._data._buf := by
  rcases hap with hap | hap
  · cases hy : Y._data._buf with
    | none => exact Or.inl rfl
    | some c => right; rw [hap]; simp
  · exact Or.inr (fun e => hap e.symm)

/-- The copy assignment on valid, separate objects, when nothing throws. -/
theorem copy_assign_ok (env : Env T) (hc : env.CopyOk) (has : env.AssignOk)
    {w : World T} {X Y : Vector} {xs ys : List T} (hX : X.Holds w xs) (hY : Y.Holds w ys)
    (hap : X.Apart Y) (hs : X._size < Y._size → env.Serves w.heap.length Y._size) :
    ∃ X2 w2, X.copy_assign env Y w = .ret () (X2, w2) ∧ X2.Holds w2 ys ∧ Y.Holds w2 ys ∧
      World.Frame X._data._buf w w2 ∧ w.KeptOrFresh X._data._buf X2._data._buf ∧
      (ys.length ≤ xs.length →
        X2._data = X._data ∧ w2.allocs = w.allocs ∧ w2.heap.length = w.heap.length) ∧
      (xs.length < ys.length →
        X2._data = _memory.mk (some w.heap.length) ys.length ∧ w2.allocs = w.allocs + 1) := by
  have hYX := Apart.symm_live hap
  by_cases hgt : Y._size > X._size
  · have hlt : xs.length < ys.length := by rw [← hX.1, ← hY.1]; exact hgt
    obtain ⟨w1, hcp, hT, hF1, hlen1, hal1⟩ := copy_ok env hc hY (hs hgt)
    have hX1 : X.Holds w1 xs := hX.frame hF1 (by cases X._data._buf <;> simp)
    have hY1 : Y.Holds w1 ys := hY.frame hF1 (by cases Y._data._buf <;> simp)
    obtain ⟨w2, hd, hF2, hlen2, hal2⟩ := dtor_ok hX1
    have hF : World.Frame X._data._buf w w2 := by
      refine ⟨by rw [hlen2, hlen1]; omega, ?_⟩
      intro c hc hne
      rw [hF2.2 c (by rw [hlen1]; omega) hne, hF1.2 c hc (by simp)]
    have hXlive : X._data._buf ≠ some w.heap.length := by
      intro e
      have := hX.live e
      omega
    have hT2 := hT.frame hF2 (Or.inr (fun e => hXlive e.symm))
    have hY2 := hY1.frame hF2 hYX
    refine ⟨_, w2, ?_, hT2, hY2, hF, Or.inr ⟨_, rfl, Nat.le_refl _⟩, fun h => by omega,
      fun _ => ⟨by rw [hY.1], by rw [hal2, hal1]⟩⟩
    simp only [Vector.copy_assign, hgt, if_true, hcp, Vector.swap, _memory.Swap]
    have hd2 : Vector.dtor (Vector.mk (_memory.mk X._data._buf X._data._capacity) X._size) w1
        = some w2 := hd
    rw [hd2]
  · have hle : ys.length ≤ xs.length := by rw [← hX.1, ← hY.1]; omega
    obtain ⟨w1, hl, hX1, hY1, hF1, hlen1, hal1⟩ := assign_prefix_ok env has hX hY hap hle
    obtain ⟨w2, hd, hX2, hF2, hlen2, hal2⟩ := destroy_tail_ok hX1 ys.length (by simp)
    have e1 : (ys ++ xs.drop ys.length).length - ys.length = X._size - Y._size := by
      rw [hX.1, hY.1]; simp
    rw [e1] at hd
    rw [List.take_left] at hX2
    have hF : World.Frame X._data._buf w w2 := Frame.trans hF1 (Or.inl rfl) hF2
    have hY2 := hY1.frame hF2 hYX
    rw [← hY.1] at hX2 hd
    refine ⟨Vector.mk X._data Y._size, w2, ?_, hX2, hY2, hF, Or.inl rfl,
      fun _ => ⟨rfl, by rw [hal2, hal1], by rw [hlen2, hlen1]⟩, fun h => by omega⟩
    have hmin : min Y._size X._size = ys.length := by rw [hX.1, hY.1]; omega
    have hnlt : ¬ X._size < Y._size := by omega
    simp only [Vector.copy_assign, hgt, if_false, hmin, hl, hnlt]
    by_cases hgt2 : X._size > Y._size
    · simp only [hgt2, if_true, hd]
    · have e0 : X._size - Y._size = 0 := by omega
      rw [e0] at hd
      simp only [destroy_n, Option.some.injEq] at hd
      simp only [hgt2, if_false, hd]

/-! ## Sequences of calls

The lemmas on `World.Only` and `World.Frame` below hold of every object, valid or not, in every
environment: they say which blocks a call that returns can have written to. -/

theorem only_refl (q r : Option Nat) (w : World T) : World.Only q r w w :=
  ⟨rfl, fun _ _ _ => rfl⟩

theorem only_trans {q r : Option Nat} {w1 w2 w3 : World T} (h12 : World.Only q r w1 w2)
    (h23 : World.Only q r w2 w3) : World.Only q r w1 w3 :=
  ⟨h23.1.trans h12.1, fun c hq hr => (h23.2 c hq hr).trans (h12.2 c hq hr)⟩

theorem only_of_left {q : Option Nat} (r : Option Nat) {w1 w2 : World T}
    (h : World.Only q q w1 w2) : World.Only q r w1 w2 :=
  ⟨h.1, fun c hq _ => h.2 c hq hq⟩

theorem only_of_right (q : Option Nat) {r : Option Nat} {w1 w2 : World T}
    (h : World.Only r r w1 w2) : World.Only q r w1 w2 :=
  ⟨h.1, fun c _ hr => h.2 c hr hr⟩

theorem only_to_frame {q : Option Nat} {w1 w2 : World T} (h : World.Only q q w1 w2) :
    World.Frame q w1 w2 :=
  ⟨Nat.le_of_eq h.1.symm, fun c _ hq => h.2 c hq hq⟩

theorem setSlot_only (w : World T) (b i : Nat) (s : List (Option T)) (x : Option T) :
    World.Only (some b) (some b) w (w.setSlot b i s x) := by
  refine ⟨by simp [World.setSlot], ?_⟩
  intro c hc _
  have hne : c ≠ b := fun e => hc (by rw [e])
  simp only [World.setSlot, World.block]
  exact getD_set_other _ _ _ _ hne

/-- Placement new writes to the block it is given and to no other. -/
theorem construct_at_only {w w2 : World T} {p : Option Nat} {i : Nat} {v : T}
    (h : w.construct_at p i v = some w2) : World.Only p p w w2 := by
  unfold World.construct_at at h
  split at h
  · cases h
  · split at h
    · cases h
    · split at h
      · cases h
        exact setSlot_only _ _ _ _ _
      · cases h

theorem destroy_at_only {w w2 : World T} {p : Option Nat} {i : Nat}
    (h : w.destroy_at p i = some w2) : World.Only p p w w2 := by
  unfold World.destroy_at at h
  split at h
  · cases h
  · split at h
    · cases h
    · split at h
      · cases h
      · cases h
        exact setSlot_only _ _ _ _ _

theorem store_only {w w2 : World T} {p : Option Nat} {i : Nat} {r : T}
    (h : w.store p i r = some w2) : World.Only p p w w2 := by
  unfold World.store at h
  split at h
  · cases h
  · split at h
    · cases h
    · split at h
      · cases h
        exact setSlot_only _ _ _ _ _
      · cases h

theorem destroy_n_only (p : Option Nat) :
    ∀ (n first : Nat) {w w2 : World T}, destroy_n p first n w = some w2 →
      World.Only p p w w2 := by
  intro n
  induction n with
  | zero =>
    intro first w w2 h
    simp only [destroy_n, Option.some.injEq] at h
    subst h
    exact only_refl _ _ _
  | succ n ih =>
    intro first w w2 h
    simp only [destroy_n] at h
    split at h
    · cases h
    · next w1 h1 => exact only_trans (destroy_at_only h1) (ih _ h)

theorem uninitialized_value_construct_loop_only (env : Env T) (p : Option Nat) (first : Nat) :
    ∀ (n done : Nat) {w w2 : World T},
      uninitialized_value_construct_loop env p first n done w = .ret () w2 →
      World.Only p p w w2 := by
  intro n
  induction n with
  | zero =>
    intro done w w2 h
    simp only [uninitialized_value_construct_loop] at h
    cases h
    exact only_refl _ _ _
  | succ n ih =>
    intro done w w2 h
    simp only [uninitialized_value_construct_loop] at h
    split at h
    · split at h <;> cases h
    · split at h
      · cases h
      · next w1 h1 => exact only_trans (construct_at_only h1) (ih _ h)

/-- The relocation loop writes to its source block (the moved-from values) and to its
destination block, and to no other. -/
theorem uninitialized_move_loop_only (env : Env T) (src dst : Option Nat) :
    ∀ (n done : Nat) {w w2 : World T},
      uninitialized_move_loop env src dst n done w = .ret () w2 → World.Only src dst w w2 := by
  intro n
  induction n with
  | zero =>
    intro done w w2 h
    simp only [uninitialized_move_loop] at h
    cases h
    exact only_refl _ _ _
  | succ n ih =>
    intro done w w2 h
    simp only [uninitialized_move_loop] at h
    split at h
    · cases h
    · split at h
      · split at h <;> cases h
      · split at h
        · cases h
        · next w1 h1 =>
          split at h
          · cases h
          · next w3 h3 =>
            have h13 : World.Only src dst w w3 :=
              only_trans (only_of_left dst (store_only h1))
                (only_of_right src (construct_at_only h3))
            have h13m : World.Only src dst w { w3 with moves := w3.moves + 1 } := h13
            exact only_trans h13m (ih _ h)

theorem allocate_ret {env : Env T} {n : Nat} {w w1 : World T} {buf : Option Nat}
    (h : _memory._allocate env n w = .ret buf w1) :
    buf = some w.heap.length ∧ w1.heap.length = w.heap.length + 1 ∧
      ∀ c, c < w.heap.length → w1.block c = w.block c := by
  unfold _memory._allocate at h
  split at h
  · cases h
    refine ⟨rfl, by simp, ?_⟩
    intro c hc
    simp only [World.block]
    exact getD_append_old _ _ _ hc
  · cases h

/-- The storage `_memory(n)` obtains is a new block; the blocks there were are untouched. -/
theorem sized_ret {env : Env T} {n : Nat} {w w1 : World T} {m : _memory}
    (h : _memory.sized env n w = .ret m w1) :
    m._buf = some w.heap.length ∧ w1.heap.length = w.heap.length + 1 ∧
      ∀ c, c < w.heap.length → w1.block c = w.block c := by
  unfold _memory.sized at h
  split at h
  · next buf w2 ha =>
    cases h
    exact allocate_ret ha
  · cases h
  · cases h

theorem deallocate_only {w w2 : World T} {buf : Option Nat}
    (h : _memory._deallocate buf w = some w2) : World.Only buf buf w w2 := by
  unfold _memory._deallocate at h
  split at h
  · cases h
    exact only_refl _ _ _
  · split at h
    · cases h
    · cases h
      refine ⟨by simp, ?_⟩
      intro c hc _
      have hne : c ≠ _ := fun e => hc (by rw [e])
      simp only [World.block]
      exact getD_set_other _ _ _ _ hne

/-- The member `reserve(n)`, on any object: when it returns, the free store is changed only in
the object's own buffer and in a block allocated by the call, and the new buffer is the old one
or that block. -/
theorem reserve_frame {env : Env T} {n : Nat} {v v1 : Vector} {w w1 : World T}
    (h : v.reserve env n w = .ret () (v1, w1)) :
    World.Frame v._data._buf w w1 ∧ w.KeptOrFresh v._data._buf v1._data._buf := by
  unfold Vector.reserve at h
  split at h
  · split at h
    · cases h
    · cases h
    · next m w2 hs =>
      split at h
      · cases h
      · split at h <;> cases h
      · next u w3 hmv =>
        split at h
        · cases h
        · next w4 hd =>
          simp only [_memory.Swap] at h
          split at h
          · cases h
          · next w5 hdt =>
            cases h
            obtain ⟨hb, hlen, hold⟩ := sized_ret hs
            have h23 := uninitialized_move_loop_only env _ _ _ _ hmv
            have h34 := only_of_left m._buf (destroy_n_only _ _ _ hd)
            have h45 := only_of_left m._buf (deallocate_only hdt)
            have h25 := only_trans (only_trans h23 h34) h45
            refine ⟨⟨by rw [h25.1, hlen]; omega, ?_⟩, Or.inr ⟨_, hb, Nat.le_refl _⟩⟩
            intro c hc hne
            rw [h25.2 c hne (by rw [hb]; intro e; cases e; omega), hold c hc]
  · cases h
    exact ⟨Frame.refl _ _, Or.inl rfl⟩

theorem resize_frame {env : Env T} {n : Nat} {v v1 : Vector} {w w1 : World T}
    (h : v.resize env n w = .ret () (v1, w1)) :
    World.Frame v._data._buf w w1 ∧ w.KeptOrFresh v._data._buf v1._data._buf := by
  unfold Vector.resize at h
  split at h
  · cases h
  · cases h
  · next u v2 w2 hr =>
    obtain ⟨hF, hK⟩ := reserve_frame hr
    split at h
    · split at h
      · cases h
      · cases h
      · next u2 w3 hc =>
        cases h
        exact ⟨Frame.trans hF hK
          (only_to_frame (uninitialized_value_construct_loop_only env _ _ _ _ hc)), hK⟩
    · split at h
      · split at h
        · cases h
        · next w3 hd =>
          cases h
          exact ⟨Frame.trans hF hK (only_to_frame (destroy_n_only _ _ _ hd)), hK⟩
      · cases h
        exact ⟨hF, hK⟩

theorem append_frame {env : Env T} {c : Option T} {v v1 : Vector} {w w1 : World T} {k : Nat}
    (h : v.append env c w = .ret k (v1, w1)) :
    World.Frame v._data._buf w w1 ∧ w.KeptOrFresh v._data._buf v1._data._buf := by
  unfold Vector.append at h
  simp only at h
  split at h
  · cases h
  · cases h
  · next u v2 w2 hg =>
    have hFK : World.Frame v._data._buf w w2 ∧ w.KeptOrFresh v._data._buf v2._data._buf := by
      split at hg
      · exact reserve_frame hg
      · cases hg
        exact ⟨Frame.refl _ _, Or.inl rfl⟩
    split at h
    · cases h
    · split at h
      · cases h
      · next w3 hc =>
        cases h
        exact ⟨Frame.trans hFK.1 hFK.2 (only_to_frame (construct_at_only hc)), hFK.2⟩

theorem push_back_frame {env : Env T} {x : T} {v v1 : Vector} {w w1 : World T}
    (h : v.push_back env x w = .ret () (v1, w1)) :
    World.Frame v._data._buf w w1 ∧ w.KeptOrFresh v._data._buf v1._data._buf := by
  unfold Vector.push_back at h
  split at h
  · cases h
  · cases h
  · next k s ha =>
    cases h
    exact append_frame ha

theorem pop_back_frame {v v1 : Vector} {w w1 : World T}
    (h : v.pop_back w = .ret () (v1, w1)) :
    World.Frame v._data._buf w w1 ∧ w.KeptOrFresh v._data._buf v1._data._buf := by
  unfold Vector.pop_back at h
  split at h
  · cases h
  · split at h
    · cases h
    · next w2 hd =>
      cases h
      exact ⟨only_to_frame (destroy_at_only hd), Or.inl rfl⟩

theorem clear_frame {v v1 : Vector} {w w1 : World T}
    (h : v.clear w = .ret () (v1, w1)) :
    World.Frame v._data._buf w w1 ∧ w.KeptOrFresh v._data._buf v1._data._buf := by
  unfold Vector.clear at h
  split at h
  · cases h
  · next w2 hd =>
    cases h
    exact ⟨only_to_frame (destroy_n_only _ _ _ hd), Or.inl rfl⟩

theorem write_frame {env : Env T} {pos : Nat} {x : T} {v v1 : Vector} {w w1 : World T}
    (h : v.write env pos x w = .ret () (v1, w1)) :
    World.Frame v._data._buf w w1 ∧ w.KeptOrFresh v._data._buf v1._data._buf := by
  unfold Vector.write at h
  split at h
  · cases h
  · split at h
    · cases h
    · split at h
      · cases h
      · next w2 hs =>
        cases h
        have hF : World.Frame v._data._buf w w2 := only_to_frame (store_only hs)
        exact ⟨hF, Or.inl rfl⟩

/-- A mutation that returns, on any object and in any environment, changes the free store only
in that object's buffer and in blocks allocated by the call, and leaves the object with its
buffer or with such a block. -/
theorem mutate_frame {env : Env T} {m : Mutation T} {B B2 : Vector} {w w2 : World T}
    (hr : B.mutate env m w = .ret () (B2, w2)) :
    World.Frame B._data._buf w w2 ∧ w.KeptOrFresh B._data._buf B2._data._buf := by
  cases m with
  | write pos x => exact write_frame hr
  | push_back x => exact push_back_frame hr
  | pop_back => exact pop_back_frame hr
  | resize n => exact resize_frame hr
  | reserve n => exact reserve_frame hr
  | clear => exact clear_frame hr

/-- Independence: a run of mutations of `B` that returns leaves every separate valid object `A`
exactly as it was. -/
theorem mutate_all_frame (env : Env T) {A : Vector} {xs : List T} :
    ∀ (ms : List (Mutation T)) {w : World T} {B : Vector},
      A.Holds w xs → A.Apart B →
      ∀ {B2 : Vector} {w2 : World T}, B.mutate_all env ms w = .ret () (B2, w2) →
      A.Holds w2 xs ∧ A.Apart B2 := by
  intro ms
  induction ms with
  | nil =>
    intro w B hA hap B2 w2 hr
    simp only [Vector.mutate_all] at hr
    cases hr
    exact ⟨hA, hap⟩
  | cons m ms ih =>
    intro w B hA hap B2 w2 hr
    simp only [Vector.mutate_all] at hr
    cases h1 : B.mutate env m w with
    | ub => rw [h1] at hr; cases hr
    | throw e s => rw [h1] at hr; cases hr
    | ret u s =>
      obtain ⟨B1, w1⟩ := s
      rw [h1] at hr
      simp only at hr
      obtain ⟨hF, hK⟩ := mutate_frame h1
      exact ih (hA.frame hF hap) (Apart.kept hA hap hK) hr

theorem default_holds (w : World T) : Vector.default.Holds w ([] : List T) :=
  ⟨rfl, Nat.le_refl _, rfl⟩

/-- The request `push_back` makes on a full object of length `s`, in a run that takes the
object to length `N > s`, is for at most `2 * N` slots. -/
theorem push_request_le {env : Env T} {N : Nat} (ha : env.AllocOk (2 * N)) (k s : Nat)
    (hlt : s < N) : env.Serves k (if s = 0 then 1 else 2 * s) :=
  ha k _ (by split <;> omega)

theorem push_all_ok (env : Env T) (hm : env.MoveOk) (hc : env.CopyOk) :
    ∀ (vs : List T) {w : World T} {v : Vector} {xs : List T}, v.Holds w xs →
      env.AllocOk (2 * (xs.length + vs.length)) →
      ∃ v2 w2, v.push_all env vs w = .ret () (v2, w2) ∧ v2.Holds w2 (xs ++ vs) := by
  intro vs
  induction vs with
  | nil =>
    intro w v xs h _
    exact ⟨v, w, rfl, by simpa using h⟩
  | cons x vs ih =>
    intro w v xs h ha
    obtain ⟨v1, w1, h1, hH1, _⟩ := push_back_ok env hm hc h x
      (fun _ => push_request_le ha _ _ (by rw [h.1, List.length_cons]; omega))
    have e : (xs ++ [x]).length + vs.length = xs.length + (x :: vs).length := by
      simp; omega
    obtain ⟨v2, w2, h2, hH2⟩ := ih hH1 (by rw [e]; exact ha)
    refine ⟨v2, w2, ?_, by simpa using hH2⟩
    simp only [Vector.push_all, List.map_cons, Vector.mutate_all, Vector.mutate, h1]
    exact h2

/-! ## Evaluation on concrete inputs -/

/-- The scenario of the specification: `push_back(1), push_back(2), push_back(3)` on an empty
Vector reallocates to capacities 1, 2 and 4 and ends in block 2 holding `[1, 2, 3]`. -/
theorem push_all_eval :
    Vector.push_all natEnv [1, 2, 3] Vector.default World.empty =
      .ret () ({ _data := { _buf := some 2, _capacity := 4 }, _size := 3 },
        { heap := [none, none, some [some 1, some 2, some 3, none]],
          allocs := 3, deallocs := 2, ctors := 6, moves := 3, dtors := 3, assigns := 0 }) := by
  decide

/-- The growth branch of the copy assignment on `X = [10, 20]`, `Y = [1, 2, 3, 4]`: a fresh
block of 4 slots, and the old buffer of `X` released. -/
theorem copy_assign_eval_growth :
    demoX.copy_assign natEnv demoY demoWorld =
      .ret () ({ _data := { _buf := some 2, _capacity := 4 }, _size := 4 },
        { heap := [none, some [some 1, some 2, some 3, some 4],
                   some [some 1, some 2, some 3, some 4]],
          allocs := 3, deallocs := 1, ctors := 10, moves := 0, dtors := 2, assigns := 0 }) := by
  decide

/-- The in-place branch of the copy assignment on `X = [1, 2, 3, 4]`, `Y = [9, 9]`: two
assignments and two destructions in the buffer of `X`. -/
theorem copy_assign_eval_in_place :
    shrinkX.copy_assign natEnv shrinkY shrinkWorld =
      .ret () ({ _data := { _buf := some 0, _capacity := 4 }, _size := 2 },
        { heap := [some [some 9, some 9, none, none], some [some 9, some 9]],
          allocs := 2, deallocs := 0, ctors := 6, moves := 0, dtors := 2, assigns := 2 }) := by
  decide

/-! ## The claims -/

/-- For `int` (4 bytes), a request for fewer than `2^62` slots does not wrap around. -/
theorem natEnv_allocOk (N : Nat) (hN : N < 2 ^ 62) : natEnv.AllocOk N := by
  intro k n hn
  refine ⟨rfl, by decide, ?_⟩
  show n * 4 < 2 ^ 64
  omega

theorem natEnv_moveOk : natEnv.MoveOk := fun x => ⟨x, rfl⟩

theorem natEnv_copyOk : natEnv.CopyOk := fun _ => rfl

theorem natEnv_assignOk : natEnv.AssignOk := fun _ _ => rfl

/-- C1: from a default-constructed Vector, the calls `push_back(v_0), ..., push_back(v_{N-1})`
return with `size() == N`, `capacity() >= N` and `operator[](i) == v_i` for every `i < N`
(the allocator serving the requests of the run, which are for at most `2 * N` slots, and the
copy and move constructors of `T` not throwing). -/
theorem push_back_sequence_spec (env : Env T) (vs : List T) (ha : env.AllocOk (2 * vs.length))
    (hm : env.MoveOk) (hc : env.CopyOk) (w : World T) :
    ∃ v2 w2, Vector.push_all env vs Vector.default w = .ret () (v2, w2) ∧
      v2.size = vs.length ∧ vs.length ≤ v2.capacity ∧
      ∀ i (hi : i < vs.length), v2.get w2 i = some vs[i] := by
  obtain ⟨v2, w2, hr, hH⟩ := push_all_ok env hm hc vs (default_holds w) (by simpa using ha)
  rw [List.nil_append] at hH
  refine ⟨v2, w2, hr, hH.size, hH.le, ?_⟩
  intro i hi
  rw [hH.get i, List.getElem?_eq_getElem hi]

/-- Witness of C1: pushing 1, 2, 3 onto an empty Vector of `Nat`s. -/
theorem push_back_sequence_spec_witness :
    natEnv.AllocOk (2 * ([1, 2, 3] : List Nat).length) ∧ natEnv.MoveOk ∧ natEnv.CopyOk ∧
    ∃ v2 w2, Vector.push_all natEnv [1, 2, 3] Vector.default World.empty = .ret () (v2, w2) ∧
      v2.size = 3 ∧ 3 ≤ v2.capacity ∧
      ∀ i (hi : i < 3), v2.get w2 i = some ([1, 2, 3] : List Nat)[i] :=
  ⟨natEnv_allocOk _ (by decide), natEnv_moveOk, natEnv_copyOk,
    push_back_sequence_spec natEnv [1, 2, 3] (natEnv_allocOk _ (by decide)) natEnv_moveOk
      natEnv_copyOk World.empty⟩

/-- C2: the growth policy of append. On a valid Vector, `push_back` and `emplace_back` return;
when the length equals the capacity the new capacity is `max(1, 2 * old capacity)`, and when the
length is below the capacity the capacity is unchanged (the allocator serving a request for
`max(1, 2 * old capacity)` slots, the copy and move constructors of `T` not throwing). -/
theorem append_growth_policy (env : Env T) (hm : env.MoveOk)
    (hc : env.CopyOk) {w : World T} {v : Vector} {xs : List T} (h : v.Holds w xs) (x : T)
    (ha : env.AllocOk (max 1 (2 * v.capacity))) :
    (∃ v2 w2, v.push_back env x w = .ret () (v2, w2) ∧
      (v.size = v.capacity → v2.capacity = max 1 (2 * v.capacity)) ∧
      (v.size < v.capacity → v2.capacity = v.capacity)) ∧
    (∃ v2 w2, v.emplace_back env (some x) w = .ret v.size (v2, w2) ∧
      (v.size = v.capacity → v2.capacity = max 1 (2 * v.capacity)) ∧
      (v.size < v.capacity → v2.capacity = v.capacity)) := by
  have hs : v._size = v._data._capacity →
      env.Serves w.heap.length (if v._size = 0 then 1 else 2 * v._size) := by
    intro hfull
    refine ha _ _ ?_
    show _ ≤ max 1 (2 * v._data._capacity)
    rw [← hfull]
    split <;> omega
  constructor
  · obtain ⟨v2, w2, hr, _, hcap, _⟩ := push_back_ok env hm hc h x hs
    refine ⟨v2, w2, hr, ?_, ?_⟩
    · intro he
      have he2 : v._size = v._data._capacity := he
      simpa [Vector.capacity, he2] using hcap
    · intro hl
      have hl2 : v._size ≠ v._data._capacity := Nat.ne_of_lt hl
      simpa [Vector.capacity, hl2] using hcap
  · obtain ⟨v2, w2, hr, _, hcap, _⟩ := append_ok env hm h x hs
    refine ⟨v2, w2, by rw [h.size]; exact hr, ?_, ?_⟩
    · intro he
      have he2 : v._size = v._data._capacity := he
      simpa [Vector.capacity, he2] using hcap
    · intro hl
      have hl2 : v._size ≠ v._data._capacity := Nat.ne_of_lt hl
      simpa [Vector.capacity, hl2] using hcap

/-- C3, amended: on a valid Vector, `reserve(n)` whose request for storage (made when
`capacity() < n`) is served in full, that is `operator new` does not fail and the byte count
`n * sizeof(T)` does not wrap around in `size_t`, returns with `capacity() >= n` over a block
of that many slots, `size()` unchanged and every element at an index below `size()` the same
as before, in the same order. -/
theorem reserve_spec (env : Env T) (hm : env.MoveOk) {w : World T}
    {v : Vector} {xs : List T} (h : v.Holds w xs) (n : Nat)
    (hs : v.capacity < n → env.Serves w.heap.length n) :
    ∃ v2 w2, v.reserve env n w = .ret () (v2, w2) ∧ n ≤ v2.capacity ∧ v2.size = v.size ∧
      v2.Holds w2 xs ∧
      ∀ i (hi : i < xs.length), v2.get w2 i = some xs[i] ∧ v.get w i = some xs[i] := by
  obtain ⟨v2, w2, hr, hH, hsz, hcap, _⟩ := reserve_ok env hm h n hs
  refine ⟨v2, w2, hr, ?_, hsz, hH, ?_⟩
  · show n ≤ v2._data._capacity
    rw [hcap]; exact Nat.le_max_right _ _
  · intro i hi
    rw [hH.get i, h.get i, List.getElem?_eq_getElem hi]
    exact ⟨rfl, rfl⟩

/-- C4: `reserve(n)` with `n <= capacity()` is a no-op: it returns the object and the whole free
store (blocks, contents and event counters) exactly as they were. -/
theorem reserve_noop (env : Env T) (n : Nat) (v : Vector) (w : World T)
    (h : n ≤ v.capacity) : v.reserve env n w = .ret () (v, w) := by
  have : ¬ v._data._capacity < n := Nat.not_lt.mpr h
  simp only [Vector.reserve, this, if_false]

/-- C5, amended: on a valid Vector of length `s`, `resize(n)` whose request for storage (made
when `capacity() < n`) is served in full, that is `operator new` does not fail and the byte
count `n * sizeof(T)` does not wrap around in `size_t`, returns with `size() == n`, the
elements below `min(s, n)` unchanged, and the elements at indices in `[s, n)` equal to the
value `T()`. -/
theorem resize_spec (env : Env T) (hm : env.MoveOk) (d : T)
    (hv : env.ops.value_init = some d) {w : World T} {v : Vector} {xs : List T}
    (h : v.Holds w xs) (n : Nat) (hs : v.capacity < n → env.Serves w.heap.length n) :
    ∃ v2 w2, v.resize env n w = .ret () (v2, w2) ∧ v2.size = n ∧ n ≤ v2.capacity ∧
      (∀ i (hi : i < xs.length), i < n → v2.get w2 i = some xs[i] ∧ v.get w i = some xs[i]) ∧
      (∀ i, v.size ≤ i → i < n → v2.get w2 i = some d) := by
  obtain ⟨v2, w2, hr, hH, hcap, _⟩ := resize_ok env hm d hv h n hs
  refine ⟨v2, w2, hr, ?_, ?_, ?_, ?_⟩
  · rw [hH.size]; simp; omega
  · show n ≤ v2._data._capacity
    rw [hcap]; exact Nat.le_max_right _ _
  · intro i hi hin
    rw [hH.get i, h.get i, List.getElem?_eq_getElem hi,
      List.getElem?_append_left (by simp; omega), List.getElem?_take_of_lt hin,
      List.getElem?_eq_getElem hi]
    exact ⟨rfl, rfl⟩
  · intro i hsi hin
    rw [h.size] at hsi
    rw [hH.get i, List.getElem?_append_right (by simp; omega)]
    simp only [List.length_take, List.getElem?_replicate]
    rw [if_pos (by omega)]

theorem demoX_holds : demoX.Holds demoWorld [10, 20] := ⟨rfl, by decide, rfl⟩

theorem demoY_holds : demoY.Holds demoWorld [1, 2, 3, 4] := ⟨rfl, by decide, rfl⟩

theorem demo_apart : demoX.Apart demoY := Or.inr (by decide)

theorem shrinkX_holds : shrinkX.Holds shrinkWorld [1, 2, 3, 4] := ⟨rfl, by decide, rfl⟩

theorem shrinkY_holds : shrinkY.Holds shrinkWorld [9, 9] := ⟨rfl, by decide, rfl⟩

theorem shrink_apart : shrinkX.Apart shrinkY := Or.inr (by decide)

/-- Witness of C3: `reserve(5)` on the Vector `[10, 20]` of capacity 2, for `int` on a 64-bit
target: `5 * 4` bytes do not wrap. -/
theorem reserve_spec_witness :
    natEnv.MoveOk ∧ demoX.Holds demoWorld [10, 20] ∧
    (demoX.capacity < 5 → natEnv.Serves demoWorld.heap.length 5) ∧
    ∃ v2 w2, demoX.reserve natEnv 5 demoWorld = .ret () (v2, w2) ∧ 5 ≤ v2.capacity ∧
      v2.size = demoX.size ∧ v2.Holds w2 [10, 20] ∧
      ∀ i (hi : i < ([10, 20] : List Nat).length),
        v2.get w2 i = some ([10, 20] : List Nat)[i] ∧
        demoX.get demoWorld i = some ([10, 20] : List Nat)[i] :=
  ⟨natEnv_moveOk, demoX_holds, fun _ => ⟨rfl, by decide, by decide⟩,
    reserve_spec natEnv natEnv_moveOk demoX_holds 5 (fun _ => ⟨rfl, by decide, by decide⟩)⟩

/-- C3 as stated fails: for `int` (4 bytes) on a 64-bit target, `reserve(2^62)` on the Vector
`[10, 20]` asks `operator new` for `2^62 * 4 = 2^64` bytes, which wraps around to 0. The
allocation succeeds with a block of no slot, `_capacity` would record `2^62`, and relocating
the two elements into that block is undefined behaviour: the call does not return with
`capacity() >= n` and the elements kept. -/
theorem reserve_wrap_counterexample :
    natEnv.MoveOk ∧ (∀ k n, natEnv.alloc_ok k n = true) ∧ demoX.Holds demoWorld [10, 20] ∧
    size_t_room natEnv.sizeof_T (2 ^ 62) = 0 ∧
    demoX.reserve natEnv (2 ^ 62) demoWorld = .ub ∧
    ¬ ∃ v2 w2, demoX.reserve natEnv (2 ^ 62) demoWorld = .ret () (v2, w2) ∧
      2 ^ 62 ≤ v2.capacity ∧ v2.size = demoX.size ∧
      ∀ i (hi : i < ([10, 20] : List Nat).length),
        v2.get w2 i = some ([10, 20] : List Nat)[i] ∧
        demoX.get demoWorld i = some ([10, 20] : List Nat)[i] := by
  have hub : demoX.reserve natEnv (2 ^ 62) demoWorld = .ub := by decide
  refine ⟨natEnv_moveOk, fun _ _ => rfl, demoX_holds, by decide, hub, ?_⟩
  rintro ⟨v2, w2, hr, _⟩
  rw [hub] at hr
  cases hr

/-- With `n = 2^62 + 2` the wrapped byte count is 8: `reserve` returns, and `capacity()` reads
`2^62 + 2` over a block of two slots, so the object it leaves is not valid. -/
theorem reserve_wrap_capacity_eval :
    demoX.reserve natEnv (2 ^ 62 + 2) demoWorld =
      .ret () ({ _data := { _buf := some 2, _capacity := 2 ^ 62 + 2 }, _size := 2 },
        { heap := [none, some [some 1, some 2, some 3, some 4], some [some 10, some 20]],
          allocs := 3, deallocs := 1, ctors := 8, moves := 2, dtors := 2, assigns := 0 }) := by
  decide

/-- Witness of C4: `reserve(3)` on the Vector `[1, 2, 3, 4]` of capacity 4. -/
theorem reserve_noop_witness :
    3 ≤ demoY.capacity ∧ demoY.reserve natEnv 3 demoWorld = .ret () (demoY, demoWorld) :=
  ⟨by decide, reserve_noop natEnv 3 demoY demoWorld (by decide)⟩

/-- Witness of C5: `resize(6)` on the Vector `[1, 2, 3, 4]` of capacity 4, for `int` on a
64-bit target, with `T() == 0`: `6 * 4` bytes do not wrap. -/
theorem resize_spec_witness :
    natEnv.MoveOk ∧ natEnv.ops.value_init = some 0 ∧
    demoY.Holds demoWorld [1, 2, 3, 4] ∧
    (demoY.capacity < 6 → natEnv.Serves demoWorld.heap.length 6) ∧
    ∃ v2 w2, demoY.resize natEnv 6 demoWorld = .ret () (v2, w2) ∧ v2.size = 6 ∧
      6 ≤ v2.capacity ∧
      (∀ i (hi : i < ([1, 2, 3, 4] : List Nat).length), i < 6 →
        v2.get w2 i = some ([1, 2, 3, 4] : List Nat)[i] ∧
        demoY.get demoWorld i = some ([1, 2, 3, 4] : List Nat)[i]) ∧
      (∀ i, demoY.size ≤ i → i < 6 → v2.get w2 i = some 0) :=
  ⟨natEnv_moveOk, rfl, demoY_holds, fun _ => ⟨rfl, by decide, by decide⟩,
    resize_spec natEnv natEnv_moveOk 0 rfl demoY_holds 6 (fun _ => ⟨rfl, by decide, by decide⟩)⟩

/-- C5 as stated fails: for `int` (4 bytes) on a 64-bit target, `resize(2^62)` on the Vector
`[10, 20]` runs `reserve(2^62)`, whose byte count `2^62 * 4` wraps around to 0; relocating the
elements into the block of no slot is undefined behaviour, so the call does not return with
`size() == n`. -/
theorem resize_wrap_counterexample :
    natEnv.MoveOk ∧ (∀ k n, natEnv.alloc_ok k n = true) ∧
    natEnv.ops.value_init = some 0 ∧ demoX.Holds demoWorld [10, 20] ∧
    demoX.resize natEnv (2 ^ 62) demoWorld = .ub ∧
    ¬ ∃ v2 w2, demoX.resize natEnv (2 ^ 62) demoWorld = .ret () (v2, w2) ∧
      v2.size = 2 ^ 62 ∧
      (∀ i (hi : i < ([10, 20] : List Nat).length), i < 2 ^ 62 →
        v2.get w2 i = some ([10, 20] : List Nat)[i] ∧
        demoX.get demoWorld i = some ([10, 20] : List Nat)[i]) ∧
      (∀ i, demoX.size ≤ i → i < 2 ^ 62 → v2.get w2 i = some 0) := by
  have hub : demoX.resize natEnv (2 ^ 62) demoWorld = .ub := by decide
  refine ⟨natEnv_moveOk, fun _ _ => rfl, rfl, demoX_holds, hub, ?_⟩
  rintro ⟨v2, w2, hr, _⟩
  rw [hub] at hr
  cases hr

/-- C6: the copy assignment `X = Y` on valid, distinct Vectors returns with
`X.size() == Y.size()` and `X[i] == Y[i]` for every `i < Y.size()`; `Y` still holds its
elements; and no later run of mutations of `Y` changes the elements of `X`. -/
theorem copy_assign_spec (env : Env T) (hc : env.CopyOk) (has : env.AssignOk)
    {w : World T} {X Y : Vector} {xs ys : List T} (hX : X.Holds w xs) (hY : Y.Holds w ys)
    (hap : X.Apart Y) (ha : env.AllocOk Y.size) :
    ∃ X2 w2, X.copy_assign env Y w = .ret () (X2, w2) ∧ X2.size = Y.size ∧
      (∀ i (hi : i < ys.length),
        X2.get w2 i = some ys[i] ∧ Y.get w2 i = some ys[i] ∧ Y.get w i = some ys[i]) ∧
      Y.Holds w2 ys ∧
      (∀ (ms : List (Mutation T)) (Y3 : Vector) (w3 : World T),
        Y.mutate_all env ms w2 = .ret () (Y3, w3) →
        ∀ i (hi : i < ys.length), X2.get w3 i = some ys[i]) := by
  obtain ⟨X2, w2, hr, hX2, hY2, _, hK, _⟩ :=
    copy_assign_ok env hc has hX hY hap (fun _ => ha _ _ (Nat.le_refl _))
  have hYX2 : Y.Apart X2 := Apart.kept hY (Apart.symm_live hap) hK
  have hX2Y : X2.Apart Y := Apart.symm_live hYX2
  refine ⟨X2, w2, hr, by rw [hX2.size, hY.size], ?_, hY2, ?_⟩
  · intro i hi
    rw [hX2.get i, hY2.get i, hY.get i, List.getElem?_eq_getElem hi]
    exact ⟨rfl, rfl, rfl⟩
  · intro ms Y3 w3 hms i hi
    obtain ⟨hX3, _⟩ := mutate_all_frame env ms hX2 hX2Y hms
    rw [hX3.get i, List.getElem?_eq_getElem hi]

/-- Witness of C6: `X = [10, 20]`, `Y = [1, 2, 3, 4]`; after `X = Y`, `X` reads
`[1, 2, 3, 4]`. -/
theorem copy_assign_spec_witness :
    natEnv.CopyOk ∧ natEnv.AssignOk ∧ demoX.Holds demoWorld [10, 20] ∧
    demoY.Holds demoWorld [1, 2, 3, 4] ∧ demoX.Apart demoY ∧ natEnv.AllocOk demoY.size ∧
    ∃ X2 w2, demoX.copy_assign natEnv demoY demoWorld = .ret () (X2, w2) ∧
      X2.size = demoY.size ∧
      (∀ i (hi : i < ([1, 2, 3, 4] : List Nat).length),
        X2.get w2 i = some ([1, 2, 3, 4] : List Nat)[i] ∧
        demoY.get w2 i = some ([1, 2, 3, 4] : List Nat)[i] ∧
        demoY.get demoWorld i = some ([1, 2, 3, 4] : List Nat)[i]) ∧
      demoY.Holds w2 [1, 2, 3, 4] ∧
      (∀ (ms : List (Mutation Nat)) (Y3 : Vector) (w3 : World Nat),
        demoY.mutate_all natEnv ms w2 = .ret () (Y3, w3) →
        ∀ i (hi : i < ([1, 2, 3, 4] : List Nat).length),
          X2.get w3 i = some ([1, 2, 3, 4] : List Nat)[i]) :=
  ⟨natEnv_copyOk, natEnv_assignOk, demoX_holds, demoY_holds, demo_apart,
    natEnv_allocOk _ (by decide),
    copy_assign_spec natEnv natEnv_copyOk natEnv_assignOk demoX_holds demoY_holds demo_apart
      (natEnv_allocOk _ (by decide))⟩

/-- C7: the copy assignment `X = Y` with `Y.size() <= X.size()` reallocates nothing: the
buffer and the capacity of `X` are the same after the call, no block is allocated, and `X` holds
the elements of `Y`. -/
theorem copy_assign_in_place (env : Env T) (hc : env.CopyOk)
    (has : env.AssignOk) {w : World T} {X Y : Vector} {xs ys : List T} (hX : X.Holds w xs)
    (hY : Y.Holds w ys) (hap : X.Apart Y) (hle : Y.size ≤ X.size) :
    ∃ X2 w2, X.copy_assign env Y w = .ret () (X2, w2) ∧
      X2.capacity = X.capacity ∧ X2._data._buf = X._data._buf ∧
      w2.allocs = w.allocs ∧ w2.heap.length = w.heap.length ∧
      X2.size = Y.size ∧ ∀ i (hi : i < ys.length), X2.get w2 i = some ys[i] := by
  obtain ⟨X2, w2, hr, hX2, _, _, _, hin, _⟩ :=
    copy_assign_ok env hc has hX hY hap (fun h => absurd h (Nat.not_lt.mpr hle))
  rw [hX.size, hY.size] at hle
  obtain ⟨hd, hal, hlen⟩ := hin hle
  refine ⟨X2, w2, hr, ?_, by rw [hd], hal, hlen, by rw [hX2.size, hY.size], ?_⟩
  · show X2._data._capacity = X._data._capacity
    rw [hd]
  · intro i hi
    rw [hX2.get i, List.getElem?_eq_getElem hi]

/-- Witness of C7: `X = [1, 2, 3, 4]`, `Y = [9, 9]`; after `X = Y`, `X` reads `[9, 9]` in
the same buffer of capacity 4. -/
theorem copy_assign_in_place_witness :
    natEnv.CopyOk ∧ natEnv.AssignOk ∧
    shrinkX.Holds shrinkWorld [1, 2, 3, 4] ∧ shrinkY.Holds shrinkWorld [9, 9] ∧
    shrinkX.Apart shrinkY ∧ shrinkY.size ≤ shrinkX.size ∧
    ∃ X2 w2, shrinkX.copy_assign natEnv shrinkY shrinkWorld = .ret () (X2, w2) ∧
      X2.capacity = shrinkX.capacity ∧ X2._data._buf = shrinkX._data._buf ∧
      w2.allocs = shrinkWorld.allocs ∧ w2.heap.length = shrinkWorld.heap.length ∧
      X2.size = shrinkY.size ∧
      ∀ i (hi : i < ([9, 9] : List Nat).length), X2.get w2 i = some ([9, 9] : List Nat)[i] :=
  ⟨natEnv_copyOk, natEnv_assignOk, shrinkX_holds, shrinkY_holds, shrink_apart,
    by decide,
    copy_assign_in_place natEnv natEnv_copyOk natEnv_assignOk shrinkX_holds
      shrinkY_holds shrink_apart (by decide)⟩

/-- C8: copy-constructing `B` from a valid `A` returns with `B.size() == A.size()`,
`B[i] == A[i]` for every `i < A.size()` and `B.capacity() == A.size()`; `A` still holds its
elements, and keeps them through every later run of mutations of `B` (element writes,
`push_back`, `pop_back`, `resize`, `reserve`, `clear`). -/
theorem copy_construct_spec (env : Env T) (hc : env.CopyOk)
    {w : World T} {A : Vector} {xs : List T} (hA : A.Holds w xs) (ha : env.AllocOk A.size) :
    ∃ B w2, Vector.copy env A w = .ret B w2 ∧ B.size = A.size ∧ B.capacity = A.size ∧
      (∀ i (hi : i < xs.length),
        B.get w2 i = some xs[i] ∧ A.get w2 i = some xs[i] ∧ A.get w i = some xs[i]) ∧
      A.Holds w2 xs ∧
      (∀ (ms : List (Mutation T)) (B3 : Vector) (w3 : World T),
        B.mutate_all env ms w2 = .ret () (B3, w3) →
        A.Holds w3 xs ∧ ∀ i (hi : i < xs.length), A.get w3 i = some xs[i]) := by
  obtain ⟨w2, hr, hB, hF, _, _⟩ := copy_ok env hc hA (ha _ _ (Nat.le_refl _))
  have hA2 : A.Holds w2 xs := hA.frame hF (by cases A._data._buf <;> simp)
  have hap : A.Apart (Vector.mk (_memory.mk (some w.heap.length) A._size) A._size) := by
    cases hb : A._data._buf with
    | none => exact Or.inl hb
    | some b =>
      right
      rw [hb]
      intro e
      cases e
      have := hA.live hb
      omega
  refine ⟨_, w2, hr, rfl, rfl, ?_, hA2, ?_⟩
  · intro i hi
    rw [hB.get i, hA2.get i, hA.get i, List.getElem?_eq_getElem hi]
    exact ⟨rfl, rfl, rfl⟩
  · intro ms B3 w3 hms
    obtain ⟨hA3, _⟩ := mutate_all_frame env ms hA2 hap hms
    refine ⟨hA3, ?_⟩
    intro i hi
    rw [hA3.get i, List.getElem?_eq_getElem hi]

/-- Witness of C8: copy-constructing from the Vector `[1, 2, 3, 4]`. -/
theorem copy_construct_spec_witness :
    natEnv.CopyOk ∧ demoY.Holds demoWorld [1, 2, 3, 4] ∧ natEnv.AllocOk demoY.size ∧
    ∃ B w2, Vector.copy natEnv demoY demoWorld = .ret B w2 ∧ B.size = demoY.size ∧
      B.capacity = demoY.size ∧
      (∀ i (hi : i < ([1, 2, 3, 4] : List Nat).length),
        B.get w2 i = some ([1, 2, 3, 4] : List Nat)[i] ∧
        demoY.get w2 i = some ([1, 2, 3, 4] : List Nat)[i] ∧
        demoY.get demoWorld i = some ([1, 2, 3, 4] : List Nat)[i]) ∧
      demoY.Holds w2 [1, 2, 3, 4] ∧
      (∀ (ms : List (Mutation Nat)) (B3 : Vector) (w3 : World Nat),
        B.mutate_all natEnv ms w2 = .ret () (B3, w3) →
        demoY.Holds w3 [1, 2, 3, 4] ∧
        ∀ i (hi : i < ([1, 2, 3, 4] : List Nat).length),
          demoY.get w3 i = some ([1, 2, 3, 4] : List Nat)[i]) :=
  ⟨natEnv_copyOk, demoY_holds, natEnv_allocOk _ (by decide),
    copy_construct_spec natEnv natEnv_copyOk demoY_holds (natEnv_allocOk _ (by decide))⟩

/-- C10: the move assignment `X = std::move(Y)` is an exchange: `X` ends with exactly the
buffer, capacity and length `Y` had, `Y` with those `X` had, which is the result of
`X.swap(Y)`; only these fields change (the function does not touch the free store), so in every
world the new `X` reads the elements the old `Y` read and conversely. -/
theorem move_assign_is_swap (X Y : Vector) :
    X.move_assign Y = (Y, X) ∧ X.move_assign Y = X.swap Y ∧
    ∀ (w : World T) (i : Nat),
      (X.move_assign Y).1.get w i = Y.get w i ∧ (X.move_assign Y).2.get w i = X.get w i :=
  ⟨rfl, rfl, fun _ _ => ⟨rfl, rfl⟩⟩

/-- The sized constructor when the request for `n` slots is served in full and `T()` does not
throw: a fresh block of exactly `n` slots, all holding the value of `T()`. -/
theorem vector_sized_ok (env : Env T) (d : T)
    (hv : env.ops.value_init = some d) (n : Nat) (w : World T)
    (hs : env.Serves w.heap.length n) :
    ∃ w2, Vector.sized env n w =
        .ret (Vector.mk (_memory.mk (some w.heap.length) n) n) w2 ∧
      Vector.Holds w2 (Vector.mk (_memory.mk (some w.heap.length) n) n) (List.replicate n d) ∧
      World.Frame none w w2 := by
  have hd1 : (World.mk (w.heap ++ [some (List.replicate n none)]) (w.allocs + 1)
      w.deallocs w.ctors w.moves w.dtors w.assigns).block w.heap.length
      = some (([] : List T).map some ++ List.replicate n none) := by
    rw [block_mk, getD_append_new]; rfl
  have hl := uninitialized_value_construct_loop_ok env d hv w.heap.length 0 n 0 [] n _ hd1
    rfl (Nat.le_refl _)
  simp only [List.nil_append, Nat.sub_self, List.replicate_zero, List.append_nil] at hl
  obtain ⟨w2, hw2⟩ : ∃ w2, w2 = World.mk ((w.heap ++ [some (List.replicate n none)]).set
      w.heap.length (some ((List.replicate n d).map some)))
      (w.allocs + 1) w.deallocs (w.ctors + n) w.moves w.dtors w.assigns := ⟨_, rfl⟩
  rw [← hw2] at hl
  refine ⟨w2, ?_, ⟨by simp, by simp, ?_⟩, ⟨by rw [hw2]; simp, ?_⟩⟩
  · simp only [Vector.sized, sized_ok env n w hs, uninitialized_value_construct_n, hl]
  · simp only
    rw [hw2, block_mk, getD_set_same _ _ _ (by simp), layout]
    simp
  · intro c hc _
    rw [hw2, block_mk, getD_set_other _ _ _ _ (by omega), getD_append_old _ _ _ hc]
    rfl

theorem pushedV_holds : pushedV.Holds pushedWorld [1, 2, 3] := by decide

/-- C11: on a valid Vector with `size() > 0`, `pop_back()` returns with `size()` one less,
`capacity()` unchanged and every element below the new size unchanged: the Vector holds the old
sequence without its last element. -/
theorem pop_back_spec {w : World T} {v : Vector} {xs : List T} (h : v.Holds w xs)
    (hpos : 0 < v.size) :
    ∃ v2 w2, v.pop_back w = .ret () (v2, w2) ∧ v2.size = v.size - 1 ∧
      v2.capacity = v.capacity ∧ v2.Holds w2 xs.dropLast ∧
      ∀ i (hi : i < xs.length), i < v.size - 1 →
        v2.get w2 i = some xs[i] ∧ v.get w i = some xs[i] := by
  have hne : xs ≠ [] := by
    intro e
    rw [h.size, e] at hpos
    exact Nat.lt_irrefl _ hpos
  obtain ⟨w2, hr, hH, _⟩ := pop_back_ok h hne
  refine ⟨_, w2, hr, rfl, rfl, hH, ?_⟩
  intro i hi hlt
  rw [h.size] at hlt
  rw [hH.get i, h.get i, List.getElem?_eq_getElem hi, List.getElem?_dropLast,
    if_pos hlt, List.getElem?_eq_getElem hi]
  exact ⟨rfl, rfl⟩

/-- Witness of C11: `pop_back()` on the Vector `[1, 2, 3]` that three `push_back`s built. -/
theorem pop_back_spec_witness :
    pushedV.Holds pushedWorld [1, 2, 3] ∧ 0 < pushedV.size ∧
    ∃ v2 w2, pushedV.pop_back pushedWorld = .ret () (v2, w2) ∧ v2.size = pushedV.size - 1 ∧
      v2.capacity = pushedV.capacity ∧ v2.Holds w2 ([1, 2, 3] : List Nat).dropLast ∧
      ∀ i (hi : i < ([1, 2, 3] : List Nat).length), i < pushedV.size - 1 →
        v2.get w2 i = some ([1, 2, 3] : List Nat)[i] ∧
        pushedV.get pushedWorld i = some ([1, 2, 3] : List Nat)[i] :=
  ⟨pushedV_holds, by decide, pop_back_spec pushedV_holds (by decide)⟩

/-- The scenario of the specification, in full: three `push_back`s give `pushedV` in
`pushedWorld`, and `pop_back()` then leaves size 2 and the elements `[1, 2]`. -/
theorem push_then_pop_eval :
    Vector.push_all natEnv [1, 2, 3] Vector.default World.empty =
      .ret () (pushedV, pushedWorld) ∧
    pushedV.pop_back pushedWorld =
      .ret () ({ _data := { _buf := some 2, _capacity := 4 }, _size := 2 },
        { heap := [none, none, some [some 1, some 2, none, none]],
          allocs := 3, deallocs := 2, ctors := 6, moves := 3, dtors := 4, assigns := 0 }) := by
  decide

/-- C12: on a valid Vector, `clear()` returns with `size() == 0`, the capacity and the buffer
unchanged; and `clear()` is idempotent: a second `clear()` returns the very same state (object
and free store). -/
theorem clear_spec {w : World T} {v : Vector} {xs : List T} (h : v.Holds w xs) :
    ∃ v2 w2, v.clear w = .ret () (v2, w2) ∧ v2.size = 0 ∧ v2.capacity = v.capacity ∧
      v2._data._buf = v._data._buf ∧ v2.Holds w2 [] ∧ v2.clear w2 = .ret () (v2, w2) := by
  obtain ⟨w2, hr, hH, _⟩ := clear_ok h
  exact ⟨_, w2, hr, rfl, rfl, rfl, hH, by simp [Vector.clear, destroy_n]⟩

/-- Witness of C12: `clear()` on the Vector `[1, 2, 3, 4]`. -/
theorem clear_spec_witness :
    demoY.Holds demoWorld [1, 2, 3, 4] ∧
    ∃ v2 w2, demoY.clear demoWorld = .ret () (v2, w2) ∧ v2.size = 0 ∧
      v2.capacity = demoY.capacity ∧ v2._data._buf = demoY._data._buf ∧
      v2.Holds w2 ([] : List Nat) ∧ v2.clear w2 = .ret () (v2, w2) :=
  ⟨demoY_holds, clear_spec demoY_holds⟩

/-- C13, amended: the sized constructor `Vector(n)` whose request for storage is served in
full, that is `operator new` does not fail and the byte count `n * sizeof(T)` does not wrap
around in `size_t`, returns a Vector with `size() == n`, `capacity() >= n` and every element
below `n` equal to the value of `T()`; the default constructor gives `size() == 0` and
`capacity() == 0`. -/
theorem sized_construct_spec (env : Env T) (d : T)
    (hv : env.ops.value_init = some d) (n : Nat) (w : World T)
    (hs : env.Serves w.heap.length n) :
    (∃ v w2, Vector.sized env n w = .ret v w2 ∧ v.size = n ∧ n ≤ v.capacity ∧
      v.Holds w2 (List.replicate n d) ∧ ∀ i, i < n → v.get w2 i = some d) ∧
    Vector.default.size = 0 ∧ Vector.default.capacity = 0 := by
  obtain ⟨w2, hr, hH, _⟩ := vector_sized_ok env d hv n w hs
  refine ⟨⟨_, w2, hr, rfl, Nat.le_refl _, hH, ?_⟩, rfl, rfl⟩
  intro i hi
  rw [hH.get i, List.getElem?_replicate, if_pos hi]

/-- Witness of C13: `Vector(3)` for `int` on a 64-bit target, where `T()` is 0: `3 * 4` bytes
do not wrap. -/
theorem sized_construct_spec_witness :
    natEnv.ops.value_init = some 0 ∧
    natEnv.Serves (World.empty : World Nat).heap.length 3 ∧
    (∃ v w2, Vector.sized natEnv 3 World.empty = .ret v w2 ∧ v.size = 3 ∧ 3 ≤ v.capacity ∧
      v.Holds w2 (List.replicate 3 0) ∧ ∀ i, i < 3 → v.get w2 i = some 0) ∧
    Vector.default.size = 0 ∧ Vector.default.capacity = 0 :=
  ⟨rfl, ⟨rfl, by decide, by decide⟩,
    sized_construct_spec natEnv 0 rfl 3 World.empty ⟨rfl, by decide, by decide⟩⟩

/-- C13 as stated fails: for `int` (4 bytes) on a 64-bit target, `Vector(2^62)` asks
`operator new` for `2^62 * 4 = 2^64` bytes, which wraps around to 0; the allocation succeeds
with a block of no slot and value-constructing the first element in it is undefined behaviour,
so no Vector of `2^62` elements is returned. -/
theorem sized_wrap_counterexample :
    (∀ k n, natEnv.alloc_ok k n = true) ∧ natEnv.ops.value_init = some 0 ∧
    size_t_room natEnv.sizeof_T (2 ^ 62) = 0 ∧
    Vector.sized natEnv (2 ^ 62) (World.empty : World Nat) = .ub ∧
    ¬ ∃ v w2, Vector.sized natEnv (2 ^ 62) (World.empty : World Nat) = .ret v w2 ∧
      v.size = 2 ^ 62 ∧ 2 ^ 62 ≤ v.capacity ∧ ∀ i, i < 2 ^ 62 → v.get w2 i = some 0 := by
  have hub : Vector.sized natEnv (2 ^ 62) (World.empty : World Nat) = .ub := by decide
  refine ⟨fun _ _ => rfl, rfl, by decide, hub, ?_⟩
  rintro ⟨v, w2, hr, _⟩
  rw [hub] at hr
  cases hr

theorem sized_capacity {env : Env T} {n : Nat} {w w1 : World T} {m : _memory}
    (h : _memory.sized env n w = .ret m w1) : m._capacity = n := by
  unfold _memory.sized at h
  split at h
  · cases h; rfl
  · cases h
  · cases h

theorem sized_leaves (env : Env T) (n : Nat) (w : World T) :
    (Vector.sized env n w).Builds Vector.Inv := by
  unfold Vector.sized
  split
  · trivial
  · trivial
  · next m w1 hs =>
    split
    · trivial
    · split <;> trivial
    · show n ≤ m._capacity
      rw [sized_capacity hs]

theorem copy_leaves (env : Env T) (other : Vector) (w : World T) :
    (Vector.copy env other w).Builds Vector.Inv := by
  unfold Vector.copy
  split
  · trivial
  · trivial
  · next m w1 hs =>
    split
    · trivial
    · split <;> trivial
    · show other._size ≤ m._capacity
      rw [sized_capacity hs]

theorem reserve_leaves (env : Env T) (n : Nat) (v : Vector) (w : World T) (hv : v.Inv) :
    (v.reserve env n w).Leaves Vector.Inv := by
  unfold Vector.reserve
  split
  · next hlt =>
    split
    · exact hv
    · trivial
    · next m w1 hs =>
      split
      · trivial
      · split
        · trivial
        · exact hv
      · split
        · trivial
        · simp only [_memory.Swap]
          split
          · trivial
          · show v._size ≤ m._capacity
            rw [sized_capacity hs]
            exact Nat.le_trans hv (Nat.le_of_lt hlt)
  · exact hv

theorem reserve_ret_fields {env : Env T} {n : Nat} {v v1 : Vector} {w w1 : World T}
    (h : v.reserve env n w = .ret () (v1, w1)) :
    v1._size = v._size ∧ v._data._capacity ≤ v1._data._capacity ∧ n ≤ v1._data._capacity := by
  unfold Vector.reserve at h
  split at h
  · next hlt =>
    split at h
    · cases h
    · cases h
    · next m w2 hs =>
      split at h
      · cases h
      · split at h <;> cases h
      · split at h
        · cases h
        · simp only [_memory.Swap] at h
          split at h
          · cases h
          · cases h
            have := sized_capacity hs
            refine ⟨rfl, ?_, ?_⟩ <;> simp only <;> omega
  · cases h
    exact ⟨rfl, Nat.le_refl _, Nat.le_of_not_lt (by assumption)⟩

theorem reserve_throw_fields {env : Env T} {n : Nat} {v v1 : Vector} {w w1 : World T} {e : Exn}
    (h : v.reserve env n w = .throw e (v1, w1)) : v1 = v := by
  unfold Vector.reserve at h
  split at h
  · split at h
    · cases h; rfl
    · cases h
    · split at h
      · cases h
      · split at h
        · cases h
        · cases h; rfl
      · split at h
        · cases h
        · simp only [_memory.Swap] at h
          split at h <;> cases h
  · cases h

theorem resize_leaves (env : Env T) (n : Nat) (v : Vector) (w : World T) (hv : v.Inv) :
    (v.resize env n w).Leaves Vector.Inv := by
  unfold Vector.resize
  split
  · trivial
  · next e s hr =>
    obtain ⟨v1, w1⟩ := s
    rw [reserve_throw_fields hr]
    exact hv
  · next u v1 w1 hr =>
    obtain ⟨hs, hc, hn⟩ := reserve_ret_fields hr
    have hv1 : v1.Inv := by
      show v1._size ≤ v1._data._capacity
      have : v._size ≤ v._data._capacity := hv
      omega
    split
    · split
      · trivial
      · exact hv1
      · exact hn
    · split
      · split
        · trivial
        · exact hn
      · exact hn

theorem append_leaves (env : Env T) (c : Option T) (v : Vector) (w : World T) (hv : v.Inv) :
    (v.append env c w).Leaves Vector.Inv := by
  have hv0 : v._size ≤ v._data._capacity := hv
  unfold Vector.append
  simp only
  split
  · trivial
  · next e s hg =>
    obtain ⟨v1, w1⟩ := s
    split at hg
    · rw [reserve_throw_fields hg]; exact hv
    · cases hg
  · next u v1 w1 hg =>
    have h1 : v1._size + 1 ≤ v1._data._capacity := by
      split at hg
      · next hfull =>
        obtain ⟨hs, hc, hn⟩ := reserve_ret_fields hg
        split at hn <;> omega
      · next hfull =>
        cases hg
        omega
    split
    · exact Nat.le_trans (Nat.le_succ _) h1
    · split
      · trivial
      · exact h1

theorem push_back_leaves (env : Env T) (x : T) (v : Vector) (w : World T) (hv : v.Inv) :
    (v.push_back env x w).Leaves Vector.Inv := by
  have := append_leaves env (env.ops.copy_ctor x) v w hv
  unfold Vector.push_back
  split
  · trivial
  · next e s h => rw [h] at this; exact this
  · next u s h => rw [h] at this; exact this

theorem pop_back_leaves (v : Vector) (w : World T) (hv : v.Inv) :
    (v.pop_back w).Leaves Vector.Inv := by
  have hv0 : v._size ≤ v._data._capacity := hv
  unfold Vector.pop_back
  split
  · trivial
  · split
    · trivial
    · show v._size - 1 ≤ v._data._capacity
      omega

theorem clear_leaves (v : Vector) (w : World T) : (v.clear w).Leaves Vector.Inv := by
  unfold Vector.clear
  split
  · trivial
  · exact Nat.zero_le _

theorem copy_ret_fields {env : Env T} {other B : Vector} {w w1 : World T}
    (h : Vector.copy env other w = .ret B w1) :
    B._size = other._size ∧ B._data._capacity = other._size := by
  unfold Vector.copy at h
  split at h
  · cases h
  · cases h
  · next m w2 hs =>
    split at h
    · cases h
    · split at h <;> cases h
    · cases h
      exact ⟨rfl, sized_capacity hs⟩

theorem copy_assign_leaves (env : Env T) (X Y : Vector) (w : World T) (hX : X.Inv) :
    (X.copy_assign env Y w).Leaves Vector.Inv := by
  have hX0 : X._size ≤ X._data._capacity := hX
  unfold Vector.copy_assign
  split
  · split
    · trivial
    · exact hX
    · next temp w1 hc =>
      obtain ⟨hs, hcap⟩ := copy_ret_fields hc
      simp only [Vector.swap, _memory.Swap]
      split
      · trivial
      · show temp._size ≤ temp._data._capacity
        omega
  · next hgt =>
    have hle : Y._size ≤ X._data._capacity := by omega
    repeat' split
    all_goals trivial

/-- C14: the invariant `size() <= capacity()`. It holds of the default-constructed Vector and
of every Vector the sized and the copy constructor return; and every mutating member function
(copy assignment, move assignment, `swap`, `reserve`, `resize`, `push_back`, `emplace_back`,
`pop_back`, `clear`) started on objects that satisfy it leaves objects that satisfy it, whether
it returns or throws, for every element type, allocator and free store. -/
theorem size_le_capacity_invariant (env : Env T) (w : World T) :
    Vector.default.Inv ∧
    (∀ n, (Vector.sized env n w).Builds Vector.Inv) ∧
    (∀ other, (Vector.copy env other w).Builds Vector.Inv) ∧
    (∀ X Y : Vector, X.Inv → (X.copy_assign env Y w).Leaves Vector.Inv) ∧
    (∀ X Y : Vector, X.Inv → Y.Inv → (X.move_assign Y).1.Inv ∧ (X.move_assign Y).2.Inv) ∧
    (∀ X Y : Vector, X.Inv → Y.Inv → (X.swap Y).1.Inv ∧ (X.swap Y).2.Inv) ∧
    (∀ (v : Vector) n, v.Inv → (v.reserve env n w).Leaves Vector.Inv) ∧
    (∀ (v : Vector) n, v.Inv → (v.resize env n w).Leaves Vector.Inv) ∧
    (∀ (v : Vector) x, v.Inv → (v.push_back env x w).Leaves Vector.Inv) ∧
    (∀ (v : Vector) c, v.Inv → (v.emplace_back env c w).Leaves Vector.Inv) ∧
    (∀ v : Vector, v.Inv → (v.pop_back w).Leaves Vector.Inv) ∧
    (∀ v : Vector, v.Inv → (v.clear w).Leaves Vector.Inv) :=
  ⟨Nat.le_refl _, fun n => sized_leaves env n w, fun o => copy_leaves env o w,
    fun X Y hX => copy_assign_leaves env X Y w hX,
    fun _ _ hX hY => ⟨hY, hX⟩, fun _ _ hX hY => ⟨hY, hX⟩,
    fun v n hv => reserve_leaves env n v w hv, fun v n hv => resize_leaves env n v w hv,
    fun v x hv => push_back_leaves env x v w hv, fun v c hv => append_leaves env c v w hv,
    fun v hv => pop_back_leaves v w hv, fun v _ => clear_leaves v w⟩

/-- Witness of C14: the Vector `[10, 20]` (size 2, capacity 2) satisfies the invariant, and so
does what `push_back(7)` returns from it, an object of size 3 and capacity 4. -/
theorem size_le_capacity_invariant_witness :
    demoX.Inv ∧ (demoX.push_back natEnv 7 demoWorld).Leaves Vector.Inv ∧
    demoX.push_back natEnv 7 demoWorld =
      .ret () ({ _data := { _buf := some 2, _capacity := 4 }, _size := 3 },
        { heap := [none, some [some 1, some 2, some 3, some 4],
                   some [some 10, some 20, some 7, none]],
          allocs := 3, deallocs := 1, ctors := 9, moves := 2, dtors := 2, assigns := 0 }) :=
  ⟨by decide,
    (size_le_capacity_invariant natEnv demoWorld).2.2.2.2.2.2.2.2.1 demoX 7 (by decide),
    by decide⟩

/-- An allocation failure in `reserve(n)` leaves the object and the free store untouched. -/
theorem reserve_alloc_failure_unchanged (env : Env T) (n : Nat) (v : Vector) (w : World T)
    (hn : v.capacity < n) (hf : env.alloc_ok w.heap.length n = false) :
    v.reserve env n w = .throw .bad_alloc (v, w) := by
  have hn2 : v._data._capacity < n := hn
  simp [Vector.reserve, hn2, _memory.sized, _memory._allocate, hf]

/-- C15, at a failing input: the Vector `[10, 20]` of an element type whose move constructor
steals from its source and throws on the second element. `reserve(5)` throws, and although the
length, the capacity and the buffer are as before, element 0 now reads the moved-from value 0
instead of 10: the relocation loop had already moved it out. -/
theorem reserve_move_failure_changes_elements :
    demoX.Holds demoWorld [10, 20] ∧ demoX.get demoWorld 0 = some 10 ∧
    demoX.reserve stealingEnv 5 demoWorld =
      .throw .elem_op (demoX,
        { heap := [some [some 0, some 20], some [some 1, some 2, some 3, some 4], none],
          allocs := 3, deallocs := 1, ctors := 7, moves := 1, dtors := 1, assigns := 0 }) ∧
    demoX.get
      ({ heap := [some [some 0, some 20], some [some 1, some 2, some 3, some 4], none],
         allocs := 3, deallocs := 1, ctors := 7, moves := 1, dtors := 1, assigns := 0 } :
        World Nat) 0 = some 0 := by
  decide

/-- C16, at a failing input: the Vector `[10, 20]` of capacity 2 and an element type whose
default constructor throws. `resize(5)` throws with the length 2 and the elements 10, 20
intact and no new element live, but the capacity is now 5 and the elements sit in a new buffer:
`reserve(5)` had already run. -/
theorem resize_failure_changes_capacity :
    demoX.Holds demoWorld [10, 20] ∧ demoX.capacity = 2 ∧
    demoX.resize noDefaultEnv 5 demoWorld =
      .throw .elem_op ({ _data := { _buf := some 2, _capacity := 5 }, _size := 2 },
        { heap := [none, some [some 1, some 2, some 3, some 4],
                   some [some 10, some 20, none, none, none]],
          allocs := 3, deallocs := 1, ctors := 8, moves := 2, dtors := 2, assigns := 0 }) ∧
    Vector.Holds
      ({ heap := [none, some [some 1, some 2, some 3, some 4],
                  some [some 10, some 20, none, none, none]],
         allocs := 3, deallocs := 1, ctors := 8, moves := 2, dtors := 2, assigns := 0 } :
        World Nat)
      { _data := { _buf := some 2, _capacity := 5 }, _size := 2 } [10, 20] := by
  decide

theorem growth_step {m0 s c m : Nat} (h : GrowthInv m0 s c m) :
    GrowthInv m0 (s + 1) (if s = c then max 1 (2 * c) else c)
      (m + (if s = c then s else 0)) := by
  rcases h with ⟨hs, hc, hm⟩ | ⟨k, hc, hm, hle, hlt⟩
  · subst hs hc hm
    exact Or.inr ⟨0, by simp, by simp, by simp, by simp⟩
  · have hpos : 1 ≤ c := by rw [hc]; exact Nat.one_le_two_pow
    by_cases hfull : s = c
    · simp only [if_pos hfull]
      refine Or.inr ⟨k + 1, ?_, ?_, ?_, ?_⟩
      · rw [Nat.pow_succ, ← hc]; omega
      · omega
      · omega
      · omega
    · simp only [if_neg hfull]
      exact Or.inr ⟨k, hc, by omega, by omega, by omega⟩

/-- Appending a list of values to a valid object keeps the growth invariant. -/
theorem push_all_growth (env : Env T) (hm : env.MoveOk) (hc : env.CopyOk)
    (m0 : Nat) :
    ∀ (vs : List T) {w : World T} {v : Vector} {xs : List T}, v.Holds w xs →
      env.AllocOk (2 * (xs.length + vs.length)) →
      GrowthInv m0 xs.length v._data._capacity w.moves →
      ∃ v2 w2, v.push_all env vs w = .ret () (v2, w2) ∧ v2.Holds w2 (xs ++ vs) ∧
        GrowthInv m0 (xs.length + vs.length) v2._data._capacity w2.moves := by
  intro vs
  induction vs with
  | nil =>
    intro w v xs h _ hg
    exact ⟨v, w, rfl, by simpa using h, by simpa using hg⟩
  | cons x vs ih =>
    intro w v xs h ha hg
    obtain ⟨v1, w1, h1, hH1, hcap, _, _, hmv⟩ := push_back_ok env hm hc h x
      (fun _ => push_request_le ha _ _ (by rw [h.1, List.length_cons]; omega))
    have e : (xs ++ [x]).length + vs.length = xs.length + (x :: vs).length := by
      simp; omega
    have hg1 := growth_step hg
    rw [← h.1, ← hcap] at hg1
    rw [h.1] at hg1
    have hg2 : GrowthInv m0 (xs ++ [x]).length v1._data._capacity w1.moves := by
      rw [hmv, List.length_append, List.length_singleton]
      rw [h.1]
      exact hg1
    obtain ⟨v2, w2, h2, hH2, hg3⟩ := ih hH1 (by rw [e]; exact ha) hg2
    refine ⟨v2, w2, ?_, by simpa using hH2, ?_⟩
    · simp only [Vector.push_all, List.map_cons, Vector.mutate_all, Vector.mutate, h1]
      exact h2
    · rw [← e]; exact hg3

theorem growth_from_default (env : Env T) (vs : List T) (ha : env.AllocOk (2 * vs.length))
    (hm : env.MoveOk) (hc : env.CopyOk) (w : World T) :
    ∃ v2 w2, Vector.push_all env vs Vector.default w = .ret () (v2, w2) ∧ v2.Holds w2 vs ∧
      GrowthInv w.moves vs.length v2._data._capacity w2.moves := by
  obtain ⟨v2, w2, hr, hH, hg⟩ := push_all_growth env hm hc w.moves vs (default_holds w)
    (by simpa using ha) (Or.inl ⟨rfl, rfl, rfl⟩)
  exact ⟨v2, w2, hr, by simpa using hH, by simpa using hg⟩

/-- C17: the `N >= 1` calls of `push_back` that take a default-constructed Vector to length
`N` relocate, in all, fewer than `2 * N` elements (exactly `capacity() - 1` of them), so the
relocation work per append is O(1) amortised. -/
theorem push_back_relocations_linear (env : Env T) (vs : List T)
    (ha : env.AllocOk (2 * vs.length)) (hm : env.MoveOk) (hc : env.CopyOk) (w : World T)
    (hN : 1 ≤ vs.length) :
    ∃ v2 w2, Vector.push_all env vs Vector.default w = .ret () (v2, w2) ∧
      w.moves ≤ w2.moves ∧ w2.moves - w.moves < 2 * vs.length ∧
      w2.moves - w.moves = v2.capacity - 1 := by
  obtain ⟨v2, w2, hr, _, hg⟩ := growth_from_default env vs ha hm hc w
  refine ⟨v2, w2, hr, ?_⟩
  rcases hg with ⟨h0, _, _⟩ | ⟨k, hcap, hmv, hle, hlt⟩
  · omega
  · have hpos : 1 ≤ v2._data._capacity := by rw [hcap]; exact Nat.one_le_two_pow
    show w.moves ≤ w2.moves ∧ w2.moves - w.moves < 2 * vs.length ∧
      w2.moves - w.moves = v2._data._capacity - 1
    omega

/-- Witness of C17: three `push_back`s on an empty Vector. -/
theorem push_back_relocations_linear_witness :
    natEnv.AllocOk (2 * ([1, 2, 3] : List Nat).length) ∧ natEnv.MoveOk ∧ natEnv.CopyOk ∧
    1 ≤ ([1, 2, 3] : List Nat).length ∧
    ∃ v2 w2, Vector.push_all natEnv [1, 2, 3] Vector.default World.empty = .ret () (v2, w2) ∧
      (World.empty : World Nat).moves ≤ w2.moves ∧
      w2.moves - (World.empty : World Nat).moves < 2 * ([1, 2, 3] : List Nat).length ∧
      w2.moves - (World.empty : World Nat).moves = v2.capacity - 1 :=
  ⟨natEnv_allocOk _ (by decide), natEnv_moveOk, natEnv_copyOk, by decide,
    push_back_relocations_linear natEnv [1, 2, 3] (natEnv_allocOk _ (by decide)) natEnv_moveOk
      natEnv_copyOk World.empty (by decide)⟩

/-- C19: after `N` consecutive `push_back`s on a default-constructed Vector the capacity is 0
when `N == 0`, and otherwise the smallest power of two that is at least `N`; hence
`capacity() < 2 * size()` whenever `N >= 1`. -/
theorem push_back_capacity_power_of_two (env : Env T) (vs : List T)
    (ha : env.AllocOk (2 * vs.length)) (hm : env.MoveOk) (hc : env.CopyOk) (w : World T) :
    ∃ v2 w2, Vector.push_all env vs Vector.default w = .ret () (v2, w2) ∧
      v2.size = vs.length ∧
      (vs.length = 0 → v2.capacity = 0) ∧
      (1 ≤ vs.length →
        (∃ k, v2.capacity = 2 ^ k ∧ vs.length ≤ 2 ^ k ∧ ∀ j, vs.length ≤ 2 ^ j → k ≤ j) ∧
        v2.capacity < 2 * v2.size) := by
  obtain ⟨v2, w2, hr, hH, hg⟩ := growth_from_default env vs ha hm hc w
  refine ⟨v2, w2, hr, hH.size, ?_, ?_⟩
  · intro h0
    rcases hg with ⟨_, hc0, _⟩ | ⟨k, _, _, _, hlt⟩
    · exact hc0
    · omega
  · intro hN
    rcases hg with ⟨h0, _, _⟩ | ⟨k, hcap, _, hle, hlt⟩
    · omega
    · refine ⟨⟨k, hcap, by rw [← hcap]; exact hle, ?_⟩, by rw [hH.size]; exact hlt⟩
      intro j hj
      by_contra hkj
      have hjk : j + 1 ≤ k := by omega
      have h2 : 2 ^ (j + 1) ≤ 2 ^ k := Nat.pow_le_pow_right (by decide) hjk
      rw [Nat.pow_succ] at h2
      have hcap2 : v2._data._capacity = 2 ^ k := hcap
      omega

/-- Witness of C19: five `push_back`s on an empty Vector end with capacity 8. -/
theorem push_back_capacity_power_of_two_witness :
    natEnv.AllocOk (2 * ([1, 2, 3, 4, 5] : List Nat).length) ∧ natEnv.MoveOk ∧ natEnv.CopyOk ∧
    ∃ v2 w2, Vector.push_all natEnv [1, 2, 3, 4, 5] Vector.default World.empty =
        .ret () (v2, w2) ∧
      v2.size = ([1, 2, 3, 4, 5] : List Nat).length ∧
      (([1, 2, 3, 4, 5] : List Nat).length = 0 → v2.capacity = 0) ∧
      (1 ≤ ([1, 2, 3, 4, 5] : List Nat).length →
        (∃ k, v2.capacity = 2 ^ k ∧ ([1, 2, 3, 4, 5] : List Nat).length ≤ 2 ^ k ∧
          ∀ j, ([1, 2, 3, 4, 5] : List Nat).length ≤ 2 ^ j → k ≤ j) ∧
        v2.capacity < 2 * v2.size) :=
  ⟨natEnv_allocOk _ (by decide), natEnv_moveOk, natEnv_copyOk,
    push_back_capacity_power_of_two natEnv [1, 2, 3, 4, 5] (natEnv_allocOk _ (by decide))
      natEnv_moveOk natEnv_copyOk World.empty⟩

/-- Five `push_back`s on an empty Vector: capacities 1, 2, 4, 4, 8 and 1 + 2 + 4 = 7
relocations in all. -/
theorem push_five_eval :
    Vector.push_all natEnv [1, 2, 3, 4, 5] Vector.default World.empty =
      .ret () ({ _data := { _buf := some 3, _capacity := 8 }, _size := 5 },
        { heap := [none, none, none,
                   some [some 1, some 2, some 3, some 4, some 5, none, none, none]],
          allocs := 4, deallocs := 3, ctors := 12, moves := 7, dtors := 7, assigns := 0 }) := by
  decide

theorem destroy_at_counts {w w2 : World T} {p : Option Nat} {i : Nat}
    (h : w.destroy_at p i = some w2) :
    w2.ctors = w.ctors ∧ w2.allocs = w.allocs ∧ w2.assigns = w.assigns ∧
      w2.dtors = w.dtors + 1 := by
  unfold World.destroy_at at h
  split at h
  · cases h
  · split at h
    · cases h
    · split at h
      · cases h
      · cases h
        exact ⟨rfl, rfl, rfl, rfl⟩

theorem destroy_n_counts (p : Option Nat) :
    ∀ (n first : Nat) {w w2 : World T}, destroy_n p first n w = some w2 →
      w2.ctors = w.ctors ∧ w2.allocs = w.allocs ∧ w2.assigns = w.assigns ∧
        w2.dtors = w.dtors + n := by
  intro n
  induction n with
  | zero =>
    intro first w w2 h
    simp only [destroy_n, Option.some.injEq] at h
    subst h
    exact ⟨rfl, rfl, rfl, rfl⟩
  | succ n ih =>
    intro first w w2 h
    simp only [destroy_n] at h
    split at h
    · cases h
    · next w1 h1 =>
      obtain ⟨a1, a2, a3, a4⟩ := destroy_at_counts h1
      obtain ⟨b1, b2, b3, b4⟩ := ih _ h
      exact ⟨by rw [b1, a1], by rw [b2, a2], by rw [b3, a3], by rw [b4, a4]; omega⟩

theorem store_counts {w w2 : World T} {p : Option Nat} {i : Nat} {r : T}
    (h : w.store p i r = some w2) :
    w2.ctors = w.ctors ∧ w2.allocs = w.allocs ∧ w2.assigns = w.assigns ∧
      w2.dtors = w.dtors := by
  unfold World.store at h
  split at h
  · cases h
  · split at h
    · cases h
    · split at h
      · cases h
        exact ⟨rfl, rfl, rfl, rfl⟩
      · cases h

theorem assign_at_ret_counts {env : Env T} {w w2 : World T} {dst src : Option Nat} {i j : Nat}
    (h : w.assign_at env dst i src j = .ret () w2) :
    w2.ctors = w.ctors ∧ w2.allocs = w.allocs ∧ w2.assigns = w.assigns + 1 ∧
      w2.dtors = w.dtors := by
  unfold World.assign_at at h
  split at h
  · cases h
  · split at h
    · cases h
    · split at h
      · cases h
      · split at h
        · cases h
        · next w1 h1 =>
          cases h
          obtain ⟨a1, a2, a3, a4⟩ := store_counts h1
          exact ⟨a1, a2, by simp only; rw [a3], a4⟩

theorem assign_at_throw_same {env : Env T} {w w2 : World T} {dst src : Option Nat} {i j : Nat}
    {e : Exn} (h : w.assign_at env dst i src j = .throw e w2) : w2 = w := by
  unfold World.assign_at at h
  split at h
  · cases h
  · split at h
    · cases h
    · split at h
      · cases h; rfl
      · split at h <;> cases h

theorem assign_loop_ret_counts (env : Env T) (dst src : Option Nat) :
    ∀ (k i : Nat) {w w2 : World T}, Vector.assign_loop env dst src k i w = .ret () w2 →
      w2.ctors = w.ctors ∧ w2.allocs = w.allocs ∧ w2.assigns = w.assigns + k ∧
        w2.dtors = w.dtors := by
  intro k
  induction k with
  | zero =>
    intro i w w2 h
    simp only [Vector.assign_loop] at h
    cases h
    exact ⟨rfl, rfl, rfl, rfl⟩
  | succ k ih =>
    intro i w w2 h
    simp only [Vector.assign_loop] at h
    split at h
    · cases h
    · cases h
    · next u w1 h1 =>
      obtain ⟨a1, a2, a3, a4⟩ := assign_at_ret_counts h1
      obtain ⟨b1, b2, b3, b4⟩ := ih _ h
      exact ⟨by rw [b1, a1], by rw [b2, a2], by rw [b3, a3]; omega, by rw [b4, a4]⟩

theorem assign_loop_throw_counts (env : Env T) (dst src : Option Nat) :
    ∀ (k i : Nat) {w w2 : World T} {e : Exn},
      Vector.assign_loop env dst src k i w = .throw e w2 →
      w2.ctors = w.ctors ∧ w2.allocs = w.allocs ∧ w2.dtors = w.dtors := by
  intro k
  induction k with
  | zero =>
    intro i w w2 e h
    simp only [Vector.assign_loop] at h
    cases h
  | succ k ih =>
    intro i w w2 e h
    simp only [Vector.assign_loop] at h
    split at h
    · cases h
    · next e1 w1 h1 =>
      cases h
      rw [assign_at_throw_same h1]
      exact ⟨rfl, rfl, rfl⟩
    · next u w1 h1 =>
      obtain ⟨a1, a2, _, a4⟩ := assign_at_ret_counts h1
      obtain ⟨b1, b2, b4⟩ := ih _ h
      exact ⟨by rw [b1, a1], by rw [b2, a2], by rw [b4, a4]⟩

theorem copy_assign_eq_described (env : Env T) (X Y : Vector) (w : World T)
    (hle : Y._size ≤ X._size) :
    X.copy_assign env Y w = X.copy_assign_in_place_described env Y w := by
  have h1 : ¬ Y._size > X._size := Nat.not_lt.mpr hle
  have h2 : ¬ X._size < Y._size := Nat.not_lt.mpr hle
  simp only [Vector.copy_assign, Vector.copy_assign_in_place_described, h1, h2, if_false]

/-- C18: in the copy assignment, when `other.size() <= size()` the in-place branch runs and its
inner case `_size < other._size` is dead: the call is exactly "assign the first `other.size()`
elements, destroy the trailing `size() - other.size()` ones, set the length". It constructs no
element and allocates nothing, whether it returns or throws; when it returns it has performed
`other.size()` assignments and `size() - other.size()` destructions. -/
theorem copy_assign_in_place_never_constructs (env : Env T) (X Y : Vector) (w : World T)
    (hle : Y.size ≤ X.size) :
    ¬ X._size < Y._size ∧
    X.copy_assign env Y w = X.copy_assign_in_place_described env Y w ∧
    (∀ X2 w2, X.copy_assign env Y w = .ret () (X2, w2) →
      w2.ctors = w.ctors ∧ w2.allocs = w.allocs ∧ w2.assigns = w.assigns + Y.size ∧
        w2.dtors = w.dtors + (X.size - Y.size)) ∧
    (∀ e X2 w2, X.copy_assign env Y w = .throw e (X2, w2) →
      w2.ctors = w.ctors ∧ w2.allocs = w.allocs) := by
  have hle2 : Y._size ≤ X._size := hle
  have hmin : min Y._size X._size = Y._size := Nat.min_eq_left hle2
  refine ⟨Nat.not_lt.mpr hle2, copy_assign_eq_described env X Y w hle2, ?_, ?_⟩
  · intro X2 w2 h
    rw [copy_assign_eq_described env X Y w hle2] at h
    unfold Vector.copy_assign_in_place_described at h
    rw [hmin] at h
    split at h
    · cases h
    · cases h
    · next u w1 h1 =>
      obtain ⟨a1, a2, a3, a4⟩ := assign_loop_ret_counts env _ _ _ _ h1
      split at h
      · split at h
        · cases h
        · next w3 h3 =>
          cases h
          obtain ⟨b1, b2, b3, b4⟩ := destroy_n_counts _ _ _ h3
          exact ⟨by rw [b1, a1], by rw [b2, a2], by rw [b3, a3]; rfl,
            by rw [b4, a4]; rfl⟩
      · next hng =>
        cases h
        have e0 : X.size - Y.size = 0 := by
          show X._size - Y._size = 0
          omega
        exact ⟨a1, a2, a3, by rw [a4, e0]; rfl⟩
  · intro e X2 w2 h
    rw [copy_assign_eq_described env X Y w hle2] at h
    unfold Vector.copy_assign_in_place_described at h
    split at h
    · cases h
    · next e1 w1 h1 =>
      cases h
      obtain ⟨a1, a2, _⟩ := assign_loop_throw_counts env _ _ _ _ h1
      exact ⟨a1, a2⟩
    · split at h
      · split at h <;> cases h
      · cases h

/-- Witness of C18: `X = [1, 2, 3, 4]`, `Y = [9, 9]`. -/
theorem copy_assign_in_place_never_constructs_witness :
    shrinkY.size ≤ shrinkX.size ∧
    (¬ shrinkX._size < shrinkY._size ∧
    shrinkX.copy_assign natEnv shrinkY shrinkWorld =
      shrinkX.copy_assign_in_place_described natEnv shrinkY shrinkWorld ∧
    (∀ X2 w2, shrinkX.copy_assign natEnv shrinkY shrinkWorld = .ret () (X2, w2) →
      w2.ctors = shrinkWorld.ctors ∧ w2.allocs = shrinkWorld.allocs ∧
        w2.assigns = shrinkWorld.assigns + shrinkY.size ∧
        w2.dtors = shrinkWorld.dtors + (shrinkX.size - shrinkY.size)) ∧
    (∀ e X2 w2, shrinkX.copy_assign natEnv shrinkY shrinkWorld = .throw e (X2, w2) →
      w2.ctors = shrinkWorld.ctors ∧ w2.allocs = shrinkWorld.allocs)) :=
  ⟨by decide,
    copy_assign_in_place_never_constructs natEnv shrinkX shrinkY shrinkWorld (by decide)⟩

theorem wideX_holds : wideX.Holds wideWorld [10, 20] := ⟨rfl, by decide, rfl⟩

theorem wideY_holds : demoY.Holds wideWorld [1, 2, 3, 4] := ⟨rfl, by decide, rfl⟩

theorem wide_apart : wideX.Apart demoY := Or.inr (by decide)

/-- C20: the copy assignment `X = Y` with `Y.size() > X.size()` returns with the capacity of
`X` exactly `Y.size()`, whatever its capacity was: `X` now owns a fresh block of `Y.size()`
slots, allocated by this call. -/
theorem copy_assign_growth_capacity (env : Env T) (hc : env.CopyOk)
    (has : env.AssignOk) {w : World T} {X Y : Vector} {xs ys : List T} (hX : X.Holds w xs)
    (hY : Y.Holds w ys) (hap : X.Apart Y) (hlt : X.size < Y.size)
    (ha : env.AllocOk Y.size) :
    ∃ X2 w2, X.copy_assign env Y w = .ret () (X2, w2) ∧ X2.capacity = Y.size ∧
      X2._data._buf = some w.heap.length ∧ w2.allocs = w.allocs + 1 ∧ X2.Holds w2 ys := by
  obtain ⟨X2, w2, hr, hX2, _, _, _, _, hgrow⟩ :=
    copy_assign_ok env hc has hX hY hap (fun _ => ha _ _ (Nat.le_refl _))
  rw [hX.size, hY.size] at hlt
  obtain ⟨hd, hal⟩ := hgrow hlt
  refine ⟨X2, w2, hr, ?_, by rw [hd], hal, hX2⟩
  show X2._data._capacity = Y._size
  rw [hd, hY.1]

/-- Witness of C20: `X = [10, 20]` with capacity 100 assigned from `Y = [1, 2, 3, 4]` ends
with capacity 4, which is below 100. -/
theorem copy_assign_growth_capacity_witness :
    natEnv.CopyOk ∧ natEnv.AssignOk ∧ wideX.Holds wideWorld [10, 20] ∧
    demoY.Holds wideWorld [1, 2, 3, 4] ∧ wideX.Apart demoY ∧ wideX.size < demoY.size ∧
    natEnv.AllocOk demoY.size ∧ wideX.capacity = 100 ∧ demoY.size = 4 ∧
    ∃ X2 w2, wideX.copy_assign natEnv demoY wideWorld = .ret () (X2, w2) ∧
      X2.capacity = demoY.size ∧ X2._data._buf = some wideWorld.heap.length ∧
      w2.allocs = wideWorld.allocs + 1 ∧ X2.Holds w2 [1, 2, 3, 4] :=
  ⟨natEnv_copyOk, natEnv_assignOk, wideX_holds, wideY_holds, wide_apart,
    by decide, natEnv_allocOk _ (by decide), rfl, rfl,
    copy_assign_growth_capacity natEnv natEnv_copyOk natEnv_assignOk wideX_holds
      wideY_holds wide_apart (by decide) (natEnv_allocOk _ (by decide))⟩

/-- Witness of C2: `push_back(7)` and `emplace_back(7)` on the full Vector `[10, 20]` (size 2,
capacity 2), where the capacity doubles to `max(1, 2 * 2) = 4`, and on the Vector `[1, 2, 3]`
of capacity 4, where it stays 4. -/
theorem append_growth_policy_witness :
    natEnv.MoveOk ∧ natEnv.CopyOk ∧
    natEnv.AllocOk (max 1 (2 * demoX.capacity)) ∧ natEnv.AllocOk (max 1 (2 * pushedV.capacity)) ∧
    demoX.Holds demoWorld [10, 20] ∧ demoX.size = demoX.capacity ∧
    max 1 (2 * demoX.capacity) = 4 ∧
    pushedV.Holds pushedWorld [1, 2, 3] ∧ pushedV.size < pushedV.capacity ∧
    pushedV.capacity = 4 ∧
    ((∃ v2 w2, demoX.push_back natEnv 7 demoWorld = .ret () (v2, w2) ∧
      (demoX.size = demoX.capacity → v2.capacity = max 1 (2 * demoX.capacity)) ∧
      (demoX.size < demoX.capacity → v2.capacity = demoX.capacity)) ∧
    (∃ v2 w2, demoX.emplace_back natEnv (some 7) demoWorld = .ret demoX.size (v2, w2) ∧
      (demoX.size = demoX.capacity → v2.capacity = max 1 (2 * demoX.capacity)) ∧
      (demoX.size < demoX.capacity → v2.capacity = demoX.capacity))) ∧
    ((∃ v2 w2, pushedV.push_back natEnv 7 pushedWorld = .ret () (v2, w2) ∧
      (pushedV.size = pushedV.capacity → v2.capacity = max 1 (2 * pushedV.capacity)) ∧
      (pushedV.size < pushedV.capacity → v2.capacity = pushedV.capacity)) ∧
    (∃ v2 w2, pushedV.emplace_back natEnv (some 7) pushedWorld =
        .ret pushedV.size (v2, w2) ∧
      (pushedV.size = pushedV.capacity → v2.capacity = max 1 (2 * pushedV.capacity)) ∧
      (pushedV.size < pushedV.capacity → v2.capacity = pushedV.capacity))) :=
  ⟨natEnv_moveOk, natEnv_copyOk, natEnv_allocOk _ (by decide), natEnv_allocOk _ (by decide),
    demoX_holds, by decide, by decide, pushedV_holds, by decide, by decide,
    append_growth_policy natEnv natEnv_moveOk natEnv_copyOk demoX_holds 7
      (natEnv_allocOk _ (by decide)),
    append_growth_policy natEnv natEnv_moveOk natEnv_copyOk pushedV_holds 7
      (natEnv_allocOk _ (by decide))⟩

/-- The two runs of the witness of C2, evaluated: the full Vector `[10, 20]` grows from
capacity 2 to 4 in a new block, and the Vector `[1, 2, 3]` of capacity 4 takes the element in
place. -/
theorem append_growth_eval :
    demoX.push_back natEnv 7 demoWorld =
      .ret () ({ _data := { _buf := some 2, _capacity := 4 }, _size := 3 },
        { heap := [none, some [some 1, some 2, some 3, some 4],
                   some [some 10, some 20, some 7, none]],
          allocs := 3, deallocs := 1, ctors := 9, moves := 2, dtors := 2, assigns := 0 }) ∧
    pushedV.push_back natEnv 7 pushedWorld =
      .ret () ({ _data := { _buf := some 2, _capacity := 4 }, _size := 4 },
        { heap := [none, none, some [some 1, some 2, some 3, some 7]],
          allocs := 3, deallocs := 2, ctors := 7, moves := 3, dtors := 3, assigns := 0 }) := by
  decide

end Cpp
